import Mathlib

/-!
Shallow embedding of the CBOE-emulator limit-order-book core
(src/include/order_entry/limit_order_book/structures.hpp,
src/include/order_entry/limit_order_book/limit_order_book.hpp,
src/include/order_entry/system_account.hpp,
src/include/order_entry/connection.hpp,
src/include/data_feed/receiver.hpp).

Machine integers are modelled as Nat / Int; prices and quantities in the
source are uint64 / uint32 and overflow only matters in `does_cross`,
where the source's explicit overflow guard is translated with an explicit
mod 2^64.

The per-side matching structure (limit_tree.hpp) is not part of the
source tree here; its behaviour is modelled from the specification
(sections 4.2 and 4.3): a side is the time-ordered list of its resting
orders, a price level is the sub-sequence of orders at one price, the
best price is the extremum over resting prices, and `market` consumes
the head of the best level repeatedly.
-/

namespace CBOE

/-- Side of an order: buy (true) or sell (false) (structures.hpp `Side`). -/
inductive Side where
  | sell
  | buy
deriving DecidableEq

/-- The opposite side (structures.hpp `operator!`). -/
def Side.invert : Side → Side
  | .sell => .buy
  | .buy => .sell

/-- A single order (structures.hpp `Order`): uid, side, remaining
quantity, limit price, owning account (accounts are identified by an
index into the account map). -/
structure Order where
  uid : Nat
  side : Side
  quantity : Nat
  price : Nat
  account : Nat
deriving DecidableEq

/-- A trading account (structures.hpp `Account`): signed share balance,
signed capital balance, and the set of the account's active orders
(held as the list of their uids).  `username` carries the
SystemAccount credential used by the connection layer's ownership
checks (system_account.hpp). -/
structure Account where
  shares : Int := 0
  capital : Int := 0
  orders : List Nat := []
  username : String := ""
deriving DecidableEq

/-- The account registry: a total map from account index to account. -/
def Accts : Type := Nat → Account

/-- Point update of the account registry. -/
def updateAcct (m : Accts) (i : Nat) (f : Account → Account) : Accts :=
  fun j => if j = i then f (m j) else m j

/-- `Account::fill(side, quantity, price)` (structures.hpp):
sells decrement shares and increment capital by quantity * price,
buys do the opposite. -/
def Account.fill (a : Account) (side : Side) (quantity price : Nat) : Account :=
  match side with
  | .sell => { a with shares := a.shares - quantity,
                      capital := a.capital + quantity * price }
  | .buy  => { a with shares := a.shares + quantity,
                      capital := a.capital - quantity * price }

/-- `Account::limit(order)` (structures.hpp): record an active order. -/
def Account.limit (a : Account) (uid : Nat) : Account :=
  { a with orders := a.orders ++ [uid] }

/-- `Account::cancel(order)` (structures.hpp): drop an active order. -/
def Account.cancel (a : Account) (uid : Nat) : Account :=
  { a with orders := a.orders.erase uid }

/-- `Account::limit_fill(limit, market)` (structures.hpp): a resting
order is consumed entirely; it leaves the account's active set and the
account is filled for the full resting quantity at the resting price. -/
def Account.limitFill (a : Account) (lim _mkt : Order) : Account :=
  (a.cancel lim.uid).fill lim.side lim.quantity lim.price

/-- `Account::limit_partial(limit, market)` (structures.hpp): a resting
order is partly consumed; the account is filled for the taker's
quantity at the resting price. -/
def Account.limitPartial (a : Account) (lim mkt : Order) : Account :=
  a.fill lim.side mkt.quantity lim.price

/-- `Account::market_fill(limit, market)` (structures.hpp): the taker is
consumed entirely; the account is filled for the taker's quantity at
the resting price. -/
def Account.marketFill (a : Account) (lim mkt : Order) : Account :=
  a.fill mkt.side mkt.quantity lim.price

/-- `Account::market_partial(limit, market)` (structures.hpp): the taker
is partly consumed; the account is filled for the resting order's
quantity at the resting price. -/
def Account.marketPartial (a : Account) (lim mkt : Order) : Account :=
  a.fill mkt.side lim.quantity lim.price

/-- One observation point fired from inside the matching loop; the two
`Order` components are the values of the resting (`lim`) and incoming
(`mkt`) orders at the instant the corresponding virtual callback of
structures.hpp / system_account.hpp runs. -/
inductive FillEvent where
  | limitFill (lim mkt : Order)
  | limitPartial (lim mkt : Order)
  | marketFill (lim mkt : Order)
  | marketPartial (lim mkt : Order)
deriving DecidableEq

/-- The resting-order snapshot of a fill event. -/
def FillEvent.lim : FillEvent → Order
  | .limitFill l _ => l
  | .limitPartial l _ => l
  | .marketFill l _ => l
  | .marketPartial l _ => l

/-- The incoming-order snapshot of a fill event. -/
def FillEvent.mkt : FillEvent → Order
  | .limitFill _ m => m
  | .limitPartial _ m => m
  | .marketFill _ m => m
  | .marketPartial _ m => m

/-- The account adjusted by a fill event: the resting order's account for
the maker-side callbacks, the incoming order's account for the
taker-side callbacks. -/
def FillEvent.acct : FillEvent → Nat
  | .limitFill l _ => l.account
  | .limitPartial l _ => l.account
  | .marketFill _ m => m.account
  | .marketPartial _ m => m.account

/-- True for the maker-side callbacks (`limit_fill` / `limit_partial`). -/
def FillEvent.isMakerEvent : FillEvent → Bool
  | .limitFill _ _ => true
  | .limitPartial _ _ => true
  | .marketFill _ _ => false
  | .marketPartial _ _ => false

/-- Dispatch a fill event into the account bookkeeping of
structures.hpp: each callback adjusts exactly one account. -/
def applyEvent (m : Accts) : FillEvent → Accts
  | .limitFill lim mkt => updateAcct m lim.account (fun a => a.limitFill lim mkt)
  | .limitPartial lim mkt => updateAcct m lim.account (fun a => a.limitPartial lim mkt)
  | .marketFill lim mkt => updateAcct m mkt.account (fun a => a.marketFill lim mkt)
  | .marketPartial lim mkt => updateAcct m mkt.account (fun a => a.marketPartial lim mkt)

/-- Apply a trace of fill events in order. -/
def applyEvents (m : Accts) (es : List FillEvent) : Accts :=
  es.foldl applyEvent m

/-!
Modelled from the spec: the per-side matching structure `LimitTree`
(limit_tree.hpp is not in the source tree; sections 3, 4.2 and 4.3 of
the spec describe it).  A side is kept as the time-ordered list of its
resting orders; the per-price FIFO is the sub-sequence of orders at
that price; the cached best price is the maximum of resting prices for
the Buy side and the minimum for the Sell side; all aggregate volumes
and counts are derived sums.
-/

/-- Modelled from the spec: the cached best price of a side
(`LimitTree::best`), `none` iff the side is empty; max price for the
buy tree, min price for the sell tree. -/
def sideBest? (ts : Side) (tree : List Order) : Option Nat :=
  match ts with
  | .buy => (tree.map Order.price).max?
  | .sell => (tree.map Order.price).min?

/-- Remove the first order at the given price from a side, returning it
and the rest; `none` when no order has that price.  The first order at
the best price is the head of the best level's FIFO. -/
def popFirstAt (p : Nat) : List Order → Option (Order × List Order)
  | [] => none
  | o :: rest =>
    if o.price = p then some (o, rest)
    else
      match popFirstAt p rest with
      | none => none
      | some (m, rest') => some (m, o :: rest')

/-- Modelled from the spec: the matching loop continues against the best
level while the taker has a limit price of 0 (market order) or the best
resting price is not worse than the taker's price (a buy tree is
consumed while `taker.price ≤ best`, a sell tree while
`best ≤ taker.price`). -/
def priceOk (ts : Side) (takerPrice best : Nat) : Bool :=
  takerPrice == 0 ||
    (match ts with
     | .buy => decide (takerPrice ≤ best)
     | .sell => decide (best ≤ takerPrice))

/-- Modelled from the spec: one side's `LimitTree::market(taker,
on_fill)` with explicit fuel (the fuel is the initial side length; each
iteration that recurses removes one resting order).  Returns the new
side, the taker's remaining quantity, and the trace of account
callbacks fired, in order.  Snapshot conventions in the events follow
the callback protocol that system_account.hpp observes: in the branch
where the resting head is smaller, the taker is decremented before the
callbacks run; in the branch where it is larger, the head is
decremented before the callbacks run; in the exact branch neither is
decremented. -/
def marketLoopF : Nat → Side → Order → List Order →
    List Order × Nat × List FillEvent
  | 0, _, taker, tree => (tree, taker.quantity, [])
  | fuel + 1, ts, taker, tree =>
    if taker.quantity = 0 then (tree, 0, []) else
    match sideBest? ts tree with
    | none => (tree, taker.quantity, [])
    | some best =>
      if priceOk ts taker.price best then
        match popFirstAt best tree with
        | none => (tree, taker.quantity, [])
        | some (maker, rest) =>
          if maker.quantity < taker.quantity then
            let taker' := { taker with quantity := taker.quantity - maker.quantity }
            let (tree', rem, evs) := marketLoopF fuel ts taker' rest
            (tree', rem,
              FillEvent.limitFill maker taker' ::
              FillEvent.marketPartial maker taker' :: evs)
          else if maker.quantity = taker.quantity then
            (rest, 0,
              [FillEvent.limitFill maker taker,
               FillEvent.marketFill maker taker])
          else
            let maker' := { maker with quantity := maker.quantity - taker.quantity }
            (maker' :: rest, 0,
              [FillEvent.limitPartial maker' taker,
               FillEvent.marketFill maker' taker])
      else (tree, taker.quantity, [])

/-- Modelled from the spec: `LimitTree::market` run with enough fuel. -/
def marketLoop (ts : Side) (taker : Order) (tree : List Order) :
    List Order × Nat × List FillEvent :=
  marketLoopF tree.length ts taker tree

/-- The limit order book (limit_order_book.hpp `LimitOrderBook`): a sell
side, a buy side, and the uid counter (`sequence`, starts at 1).  The
uid → order map of the source holds exactly the resting orders, so here
it is the union of the two side lists. -/
structure Book where
  sells : List Order := []
  buys : List Order := []
  sequence : Nat := 1
deriving DecidableEq

/-- `LimitOrderBook::best_sell` (limit_order_book.hpp): the best sell
price, or 0 when the sell side is empty. -/
def Book.best_sell (b : Book) : Nat :=
  match sideBest? .sell b.sells with
  | none => 0
  | some p => p

/-- `LimitOrderBook::best_buy` (limit_order_book.hpp): the best buy
price, or 0 when the buy side is empty. -/
def Book.best_buy (b : Book) : Nat :=
  match sideBest? .buy b.buys with
  | none => 0
  | some p => p

/-- `LimitOrderBook::best(side)` (limit_order_book.hpp). -/
def Book.best (b : Book) : Side → Nat
  | .sell => b.best_sell
  | .buy => b.best_buy

/-- Total resting volume of a side (`LimitTree::volume`, derived). -/
def treeVolume (tree : List Order) : Nat :=
  (tree.map Order.quantity).sum

/-- Resting volume at one price of a side (`LimitTree::volume_at`,
derived). -/
def volumeAt (tree : List Order) (p : Nat) : Nat :=
  ((tree.filter (fun o => o.price = p)).map Order.quantity).sum

/-- `LimitOrderBook::volume_sell()` (limit_order_book.hpp). -/
def Book.volume_sell (b : Book) : Nat := treeVolume b.sells

/-- `LimitOrderBook::volume_buy()` (limit_order_book.hpp). -/
def Book.volume_buy (b : Book) : Nat := treeVolume b.buys

/-- `LimitOrderBook::count_sell()` (limit_order_book.hpp). -/
def Book.count_sell (b : Book) : Nat := b.sells.length

/-- `LimitOrderBook::count_buy()` (limit_order_book.hpp). -/
def Book.count_buy (b : Book) : Nat := b.buys.length

/-- Look up a resting order by uid (the uid → order map). -/
def Book.findOrder? (b : Book) (uid : Nat) : Option Order :=
  match b.sells.find? (fun o => o.uid == uid) with
  | some o => some o
  | none => b.buys.find? (fun o => o.uid == uid)

/-- `LimitOrderBook::has(order_id)` (limit_order_book.hpp). -/
def Book.has (b : Book) (uid : Nat) : Bool :=
  (b.findOrder? uid).isSome

/-- Remove the first resting order with the given uid from a side (the
FIFO splice of the side's cancel). -/
def removeUid : List Order → Nat → List Order
  | [], _ => []
  | o :: rest, uid =>
    if o.uid = uid then rest else o :: removeUid rest uid

/-- Update the first resting order with the given uid in a side. -/
def updateFirstUid (tree : List Order) (uid : Nat) (f : Order → Order) :
    List Order :=
  match tree with
  | [] => []
  | o :: rest =>
    if o.uid = uid then f o :: rest
    else o :: updateFirstUid rest uid f

/-- The crossing test of `LimitOrderBook::limit_sell`
(limit_order_book.hpp line 82): `buys.best != nullptr && price <=
buys.best->key`. -/
def Book.crossesAsSell (b : Book) (price : Nat) : Bool :=
  match sideBest? .buy b.buys with
  | none => false
  | some bb => decide (price ≤ bb)

/-- The crossing test of `LimitOrderBook::limit_buy`
(limit_order_book.hpp line 107): `sells.best != nullptr && price >=
sells.best->key`. -/
def Book.crossesAsBuy (b : Book) (price : Nat) : Bool :=
  match sideBest? .sell b.sells with
  | none => false
  | some bs => decide (bs ≤ price)

/-- `LimitOrderBook::limit_sell(account, quantity, price)`
(limit_order_book.hpp): reserve the uid `sequence` for the incoming
order; if the buy side crosses, run the buy side's matching loop with
the incoming order as taker; if the taker is fully consumed return
uid 0 without advancing `sequence`; otherwise rest the residual on the
sell side (which also records it in the account's active set, spec
4.3) and return `sequence`, then advance it.  Returns the new book, the
new accounts, the returned uid, and the fill-event trace. -/
def Book.limit_sell (b : Book) (m : Accts) (acct qty price : Nat) :
    Book × Accts × Nat × List FillEvent :=
  let taker : Order := ⟨b.sequence, .sell, qty, price, acct⟩
  if b.crossesAsSell price then
    let (buys', rem, evs) := marketLoop .buy taker b.buys
    let m1 := applyEvents m evs
    if rem = 0 then
      ({ b with buys := buys' }, m1, 0, evs)
    else
      ({ b with buys := buys',
                sells := b.sells ++ [{ taker with quantity := rem }],
                sequence := b.sequence + 1 },
       updateAcct m1 acct (fun a => a.limit taker.uid), b.sequence, evs)
  else
    ({ b with sells := b.sells ++ [taker], sequence := b.sequence + 1 },
     updateAcct m acct (fun a => a.limit taker.uid), b.sequence, [])

/-- `LimitOrderBook::limit_buy(account, quantity, price)`
(limit_order_book.hpp), symmetric to `Book.limit_sell`. -/
def Book.limit_buy (b : Book) (m : Accts) (acct qty price : Nat) :
    Book × Accts × Nat × List FillEvent :=
  let taker : Order := ⟨b.sequence, .buy, qty, price, acct⟩
  if b.crossesAsBuy price then
    let (sells', rem, evs) := marketLoop .sell taker b.sells
    let m1 := applyEvents m evs
    if rem = 0 then
      ({ b with sells := sells' }, m1, 0, evs)
    else
      ({ b with sells := sells',
                buys := b.buys ++ [{ taker with quantity := rem }],
                sequence := b.sequence + 1 },
       updateAcct m1 acct (fun a => a.limit taker.uid), b.sequence, evs)
  else
    ({ b with buys := b.buys ++ [taker], sequence := b.sequence + 1 },
     updateAcct m acct (fun a => a.limit taker.uid), b.sequence, [])

/-- `LimitOrderBook::limit(account, side, quantity, price)`
(limit_order_book.hpp). -/
def Book.limit (b : Book) (m : Accts) (acct : Nat) (side : Side)
    (qty price : Nat) : Book × Accts × Nat × List FillEvent :=
  match side with
  | .sell => b.limit_sell m acct qty price
  | .buy => b.limit_buy m acct qty price

/-- `LimitOrderBook::market_sell(account, quantity)`
(limit_order_book.hpp): an ephemeral order with price 0 consumes the
buy side; any residual quantity is discarded. -/
def Book.market_sell (b : Book) (m : Accts) (acct qty : Nat) :
    Book × Accts × List FillEvent :=
  let taker : Order := ⟨b.sequence, .sell, qty, 0, acct⟩
  let (buys', _, evs) := marketLoop .buy taker b.buys
  ({ b with buys := buys' }, applyEvents m evs, evs)

/-- `LimitOrderBook::market_buy(account, quantity)`
(limit_order_book.hpp). -/
def Book.market_buy (b : Book) (m : Accts) (acct qty : Nat) :
    Book × Accts × List FillEvent :=
  let taker : Order := ⟨b.sequence, .buy, qty, 0, acct⟩
  let (sells', _, evs) := marketLoop .sell taker b.sells
  ({ b with sells := sells' }, applyEvents m evs, evs)

/-- `LimitOrderBook::market(account, side, quantity)`
(limit_order_book.hpp). -/
def Book.market (b : Book) (m : Accts) (acct : Nat) (side : Side)
    (qty : Nat) : Book × Accts × List FillEvent :=
  match side with
  | .sell => b.market_sell m acct qty
  | .buy => b.market_buy m acct qty

/-- `LimitOrderBook::cancel(order_id)` (limit_order_book.hpp): remove
the order from its side and from the uid map; removal from the
account's active set is part of the side's cancel (spec 4.3).  A
missing uid is a precondition violation in the source (`orders.at`
throws); here it leaves the state unchanged. -/
def Book.cancel (b : Book) (m : Accts) (uid : Nat) : Book × Accts :=
  match b.findOrder? uid with
  | none => (b, m)
  | some o =>
    let b' : Book :=
      match o.side with
      | .sell => { b with sells := removeUid b.sells uid }
      | .buy => { b with buys := removeUid b.buys uid }
    (b', updateAcct m o.account (fun a => a.cancel uid))

/-- Outcome of `LimitOrderBook::reduce` (limit_order_book.hpp): either
the new state, or the `InsufficientQuantity` failure (the source
throws before mutating anything), or a missing uid (the source's
`orders.at` throws). -/
inductive ReduceResult where
  | ok (b : Book) (m : Accts)
  | insufficient
  | notFound

/-- `LimitOrderBook::reduce(order_id, quantity)` (limit_order_book.hpp):
fail if the delta exceeds the order's remaining quantity; otherwise
subtract it from the order (level and side volumes are derived sums
here); if the remaining quantity reaches 0, behave as cancel. -/
def Book.reduce (b : Book) (m : Accts) (uid q : Nat) : ReduceResult :=
  match b.findOrder? uid with
  | none => .notFound
  | some o =>
    if o.quantity < q then .insufficient
    else
      let sub : Order → Order := fun x => { x with quantity := x.quantity - q }
      let b1 : Book :=
        match o.side with
        | .sell => { b with sells := updateFirstUid b.sells uid sub }
        | .buy => { b with buys := updateFirstUid b.buys uid sub }
      if o.quantity - q = 0 then
        let b2 : Book :=
          match o.side with
          | .sell => { b1 with sells := removeUid b1.sells uid }
          | .buy => { b1 with buys := removeUid b1.buys uid }
        .ok b2 (updateAcct m o.account (fun a => a.cancel uid))
      else .ok b1 m

/-- `LimitOrderBook::does_cross(other, spread)` (limit_order_book.hpp):
false when this book's `best_sell()` is 0; false when `best_sell() +
spread` would overflow the 64-bit price type; otherwise compare the
(64-bit) sum against the other book's `best_buy()`. -/
def Book.does_cross (b other : Book) (spread : Nat) : Bool :=
  if b.best_sell = 0 then false
  else if 2 ^ 64 - 1 - spread < b.best_sell then false
  else if (b.best_sell + spread) % 2 ^ 64 < other.best_buy then true
  else false

/-- The side on whose behalf a fill event adjusts its account: the
resting order's side for the maker-side callbacks, the incoming
order's side for the taker-side callbacks (the first argument of
`Account::fill` in each callback of structures.hpp). -/
def FillEvent.filledSide : FillEvent → Side
  | .limitFill l _ => l.side
  | .limitPartial l _ => l.side
  | .marketFill _ m => m.side
  | .marketPartial _ m => m.side

/-- The quantity a fill event adjusts its account by (the second
argument of `Account::fill` in each callback of structures.hpp). -/
def FillEvent.qty : FillEvent → Nat
  | .limitFill l _ => l.quantity
  | .limitPartial _ m => m.quantity
  | .marketFill _ m => m.quantity
  | .marketPartial l _ => l.quantity

/-- The net share adjustment of `Account::fill` on the given side. -/
def fillSharesDelta (s : Side) (q : Nat) : Int :=
  match s with
  | .sell => -(q : Int)
  | .buy => (q : Int)

/-- The net capital adjustment of `Account::fill` on the given side. -/
def fillCapitalDelta (s : Side) (q p : Nat) : Int :=
  match s with
  | .sell => (q : Int) * p
  | .buy => -((q : Int) * p)

/-- A TradeResponse payload (messages.hpp `TradeResponse`): order id,
price, traded quantity, leaves quantity, side. -/
structure TradeResponseMsg where
  order_id : Nat
  price : Nat
  quantity : Nat
  leaves_quantity : Nat
  side : Side
deriving DecidableEq

/-- The TradeResponse each fill callback emits to the adjusted account's
session (system_account.hpp `SystemAccount::limit_fill` /
`limit_partial` / `market_fill` / `market_partial`): maker-side
callbacks send the resting order's uid; both taker-side callbacks send
0 (the source passes the literal 0 with `market->uid` commented out). -/
def tradeResponseOf : FillEvent → TradeResponseMsg
  | .limitFill lim _ => ⟨lim.uid, lim.price, lim.quantity, 0, lim.side⟩
  | .limitPartial lim mkt => ⟨lim.uid, lim.price, mkt.quantity, lim.quantity, lim.side⟩
  | .marketFill lim mkt => ⟨0, lim.price, mkt.quantity, 0, mkt.side⟩
  | .marketPartial lim mkt => ⟨0, lim.price, lim.quantity, mkt.quantity, mkt.side⟩

/-- Status byte of a ReplaceResponse (messages.hpp). -/
inductive ReplaceStatus where
  | accepted
  | rejected
deriving DecidableEq

/-- A ReplaceResponse payload (messages.hpp `ReplaceResponse`). -/
structure ReplaceResponseMsg where
  canceled : Nat
  new_order_id : Nat
  status : ReplaceStatus
deriving DecidableEq

/-- `Connection::handle(ReplaceRequest)` (connection.hpp): reject when
not logged in; when the target order exists but its account's username
differs from the session's, reject without touching the book; when it
exists and is owned, cancel it and record its uid as `canceled`
(otherwise `canceled` stays 0); in every non-rejected path place the
new limit and answer Accepted with `canceled` and the new uid. -/
def handleReplace (b : Book) (m : Accts) (session : Option Nat)
    (order_id : Nat) (side : Side) (qty price : Nat) :
    Book × Accts × ReplaceResponseMsg :=
  match session with
  | none => (b, m, ⟨order_id, 0, .rejected⟩)
  | some acct =>
    match b.findOrder? order_id with
    | some o =>
      if (m o.account).username ≠ (m acct).username then
        (b, m, ⟨order_id, 0, .rejected⟩)
      else
        let (b1, m1) := b.cancel m order_id
        let r := Book.limit b1 m1 acct side qty price
        (r.1, r.2.1, ⟨order_id, r.2.2.1, .accepted⟩)
    | none =>
      let r := Book.limit b m acct side qty price
      (r.1, r.2.1, ⟨0, r.2.2.1, .accepted⟩)

/-!
The market-data mirror book maintained by the subscriber
(src/include/data_feed/limit_order_book/limit_order_book.hpp): the same
book without accounts and without a uid counter; order uids come from
the wire.
-/

/-- `DataFeed::LOB::LimitOrderBook::limit_sell(order_id, quantity,
price)` (data_feed limit_order_book.hpp): like the order-entry book's
limit_sell but with the wire uid and no account bookkeeping. -/
def feedLimitSell (b : Book) (uid qty price : Nat) : Book :=
  let taker : Order := ⟨uid, .sell, qty, price, 0⟩
  if b.crossesAsSell price then
    let (buys', rem, _) := marketLoop .buy taker b.buys
    if rem = 0 then { b with buys := buys' }
    else { b with buys := buys',
                  sells := b.sells ++ [{ taker with quantity := rem }] }
  else { b with sells := b.sells ++ [taker] }

/-- `DataFeed::LOB::LimitOrderBook::limit_buy` (data_feed
limit_order_book.hpp). -/
def feedLimitBuy (b : Book) (uid qty price : Nat) : Book :=
  let taker : Order := ⟨uid, .buy, qty, price, 0⟩
  if b.crossesAsBuy price then
    let (sells', rem, _) := marketLoop .sell taker b.sells
    if rem = 0 then { b with sells := sells' }
    else { b with sells := sells',
                  buys := b.buys ++ [{ taker with quantity := rem }] }
  else { b with buys := b.buys ++ [taker] }

/-- `DataFeed::LOB::LimitOrderBook::limit(side, order_id, quantity,
price)` (data_feed limit_order_book.hpp). -/
def feedLimit (b : Book) (side : Side) (uid qty price : Nat) : Book :=
  match side with
  | .sell => feedLimitSell b uid qty price
  | .buy => feedLimitBuy b uid qty price

/-- `DataFeed::LOB::LimitOrderBook::cancel(order_id)` (data_feed
limit_order_book.hpp): no account bookkeeping on the mirror book. -/
def feedCancel (b : Book) (uid : Nat) : Book :=
  match b.findOrder? uid with
  | none => b
  | some o =>
    match o.side with
    | .sell => { b with sells := removeUid b.sells uid }
    | .buy => { b with buys := removeUid b.buys uid }

/-- `DataFeed::LOB::LimitOrderBook::reduce(order_id, quantity)`
(data_feed limit_order_book.hpp); the insufficient-quantity throw is
not reachable from the receiver (which checks `has` first and the feed
reports trades bounded by the resting quantity), and leaves the book
unchanged here. -/
def feedReduce (b : Book) (uid q : Nat) : Book :=
  match b.findOrder? uid with
  | none => b
  | some o =>
    if o.quantity < q then b
    else
      let sub : Order → Order := fun x => { x with quantity := x.quantity - q }
      let b1 : Book :=
        match o.side with
        | .sell => { b with sells := updateFirstUid b.sells uid sub }
        | .buy => { b with buys := updateFirstUid b.buys uid sub }
      if o.quantity - q = 0 then
        match o.side with
        | .sell => { b1 with sells := removeUid b1.sells uid }
        | .buy => { b1 with buys := removeUid b1.buys uid }
      else b1

/-- The body of a market-data packet (data_feed messages.hpp):
StartOfSession, EndOfSession, Clear, AddOrder, DeleteOrder, Trade. -/
inductive FeedBody where
  | startOfSession
  | endOfSession
  | clear
  | addOrder (uid : Nat) (side : Side) (qty price : Nat)
  | deleteOrder (uid : Nat)
  | trade (uid : Nat) (qty : Nat)
deriving DecidableEq

/-- A market-data packet: header sequence number plus body. -/
structure FeedMsg where
  sequence : Nat
  body : FeedBody
deriving DecidableEq

/-- The state of the market-data subscriber (receiver.hpp
`DataFeed::Receiver`): the mirror book, the session-active flag, and
the last received sequence number (starts at 0). -/
structure Receiver where
  book : Book := {}
  is_session_active : Bool := false
  last_sequence : Nat := 0
deriving DecidableEq

/-- The per-body handlers of receiver.hpp (`handle(StartOfSession)` ..
`handle(Trade)`): DeleteOrder and Trade for an unknown uid only log and
change nothing; AddOrder always applies with the wire uid. -/
def Receiver.applyBody (r : Receiver) : FeedBody → Receiver
  | .startOfSession => { r with is_session_active := true }
  | .endOfSession => { r with is_session_active := false }
  | .clear => { r with book := { sells := [], buys := [], sequence := 1 } }
  | .addOrder uid side q p => { r with book := feedLimit r.book side uid q p }
  | .deleteOrder uid =>
    if r.book.has uid then { r with book := feedCancel r.book uid } else r
  | .trade uid q =>
    if r.book.has uid then { r with book := feedReduce r.book uid q } else r

/-- `DataFeed::Receiver::read_message` (receiver.hpp lines 54-86): the
expected sequence is `last_sequence + 1`; on a mismatch the gap is
logged (returned here as the Bool) and `last_sequence` is set to the
observed sequence — in both cases `last_sequence` ends up at the
observed value — and the packet is then dispatched to its handler
unconditionally. -/
def Receiver.read_message (r : Receiver) (msg : FeedMsg) : Receiver × Bool :=
  let gap : Bool := decide (msg.sequence ≠ r.last_sequence + 1)
  let r1 : Receiver := { r with last_sequence := msg.sequence }
  (r1.applyBody msg.body, gap)

/-- Feed a whole packet stream to the receiver. -/
def processFeed (r : Receiver) (msgs : List FeedMsg) : Receiver :=
  msgs.foldl (fun st msg => (st.read_message msg).1) r

/-- One request against the book, as routed by the connection layer:
a limit order, a market order, a cancel, or a reduce. -/
inductive Op where
  | limitOp (acct : Nat) (side : Side) (qty price : Nat)
  | marketOp (acct : Nat) (side : Side) (qty : Nat)
  | cancelOp (uid : Nat)
  | reduceOp (uid : Nat) (q : Nat)
deriving DecidableEq

/-- The trading account of an operation, when it has one. -/
def Op.acct : Op → Option Nat
  | .limitOp a _ _ _ => some a
  | .marketOp a _ _ => some a
  | .cancelOp _ => none
  | .reduceOp _ _ => none

/-- Apply one operation to the (book, accounts) state, returning the
uid handed back to the caller for limit operations.  The failing
reduce paths throw in the source before mutating, so they leave the
state unchanged. -/
def stepOp (st : Book × Accts) (op : Op) : (Book × Accts) × Option Nat :=
  match op with
  | .limitOp a s q p =>
    let r := st.1.limit st.2 a s q p
    ((r.1, r.2.1), some r.2.2.1)
  | .marketOp a s q =>
    let r := st.1.market st.2 a s q
    ((r.1, r.2.1), none)
  | .cancelOp uid => (st.1.cancel st.2 uid, none)
  | .reduceOp uid q =>
    match st.1.reduce st.2 uid q with
    | .ok b m => ((b, m), none)
    | .insufficient => (st, none)
    | .notFound => (st, none)

/-- Run a request sequence, collecting the uids returned by the limit
operations in order. -/
def runOps (st : Book × Accts) : List Op → (Book × Accts) × List Nat
  | [] => (st, [])
  | op :: ops =>
    let r := stepOp st op
    let rest := runOps r.1 ops
    (rest.1, (match r.2 with | some u => [u] | none => []) ++ rest.2)

/-- The claim's reading of `does_cross` (spec section 8): true iff this
book's best sell is non-null, that is the sell side is non-empty, and
the exact sum of the best sell and the spread is below the other
book's best buy. -/
def does_cross_claimed (b other : Book) (spread : Nat) : Prop :=
  b.sells ≠ [] ∧ b.best_sell + spread < other.best_buy

/-- The empty account map used in concrete scenarios. -/
def emptyAccts : Accts := fun _ => {}

-- ---------------------------------------------------------------------------
-- Basic lemmas about the matching structures
-- ---------------------------------------------------------------------------

theorem popFirstAt_some (p : Nat) :
    ∀ (tree rest : List Order) (mk : Order),
      popFirstAt p tree = some (mk, rest) →
      mk ∈ tree ∧ mk.price = p ∧ ∀ x ∈ rest, x ∈ tree := by
  intro tree
  induction tree with
  | nil => intro rest mk h; simp [popFirstAt] at h
  | cons o tl ih =>
    intro rest mk h
    rw [popFirstAt] at h
    by_cases hp : o.price = p
    · rw [if_pos hp] at h
      obtain ⟨h1, h2⟩ := Prod.mk.injEq .. ▸ (Option.some.injEq .. ▸ h)
      subst h1; subst h2
      exact ⟨List.mem_cons_self o tl, hp, fun x hx => List.mem_cons_of_mem o hx⟩
    · rw [if_neg hp] at h
      cases hrec : popFirstAt p tl with
      | none => rw [hrec] at h; exact absurd h (by simp)
      | some pr =>
        obtain ⟨mk', rest'⟩ := pr
        rw [hrec] at h
        obtain ⟨h1, h2⟩ := Prod.mk.injEq .. ▸ (Option.some.injEq .. ▸ h)
        obtain ⟨hmem, hprice, hsub⟩ := ih rest' mk' hrec
        subst h1
        refine ⟨List.mem_cons_of_mem o hmem, hprice, ?_⟩
        intro x hx
        rw [← h2] at hx
        rcases List.mem_cons.mp hx with hxo | hxr
        · exact hxo ▸ List.mem_cons_self o tl
        · exact List.mem_cons_of_mem o (hsub x hxr)

theorem removeUid_subset :
    ∀ (tree : List Order) (uid : Nat), ∀ x ∈ removeUid tree uid, x ∈ tree := by
  intro tree uid
  induction tree with
  | nil => intro x hx; simp [removeUid] at hx
  | cons o tl ih =>
    intro x hx
    rw [removeUid] at hx
    by_cases h : o.uid = uid
    · rw [if_pos h] at hx; exact List.mem_cons_of_mem o hx
    · rw [if_neg h] at hx
      rcases List.mem_cons.mp hx with hxo | hxr
      · exact hxo ▸ List.mem_cons_self o tl
      · exact List.mem_cons_of_mem o (ih x hxr)

theorem updateFirstUid_mem :
    ∀ (tree : List Order) (uid : Nat) (f : Order → Order),
      ∀ x ∈ updateFirstUid tree uid f, x ∈ tree ∨ ∃ o ∈ tree, x = f o := by
  intro tree uid f
  induction tree with
  | nil => intro x hx; simp [updateFirstUid] at hx
  | cons o tl ih =>
    intro x hx
    rw [updateFirstUid] at hx
    by_cases h : o.uid = uid
    · rw [if_pos h] at hx
      rcases List.mem_cons.mp hx with hxo | hxr
      · exact Or.inr ⟨o, List.mem_cons_self o tl, hxo⟩
      · exact Or.inl (List.mem_cons_of_mem o hxr)
    · rw [if_neg h] at hx
      rcases List.mem_cons.mp hx with hxo | hxr
      · exact Or.inl (hxo ▸ List.mem_cons_self o tl)
      · rcases ih x hxr with hin | ⟨o', ho', hxo'⟩
        · exact Or.inl (List.mem_cons_of_mem o hin)
        · exact Or.inr ⟨o', List.mem_cons_of_mem o ho', hxo'⟩

-- ---------------------------------------------------------------------------
-- Sums over the account registry
-- ---------------------------------------------------------------------------

/-- The sum of an account observable over a list of account indices. -/
def sumOver (g : Account → Int) (m : Accts) (ids : List Nat) : Int :=
  (ids.map fun i => g (m i)).sum

theorem sumOver_update_const (g : Account → Int) (m : Accts) (i : Nat)
    (f : Account → Account) (ids : List Nat)
    (hf : ∀ a, g (f a) = g a) :
    sumOver g (updateAcct m i f) ids = sumOver g m ids := by
  induction ids with
  | nil => rfl
  | cons j tl ih =>
    simp only [sumOver, List.map_cons, List.sum_cons] at *
    rw [ih]
    congr 1
    by_cases hj : j = i
    · simp [updateAcct, hj, hf]
    · simp [updateAcct, hj]

theorem sumOver_update_not_mem (g : Account → Int) (m : Accts) (i : Nat)
    (f : Account → Account) (ids : List Nat) (hi : i ∉ ids) :
    sumOver g (updateAcct m i f) ids = sumOver g m ids := by
  induction ids with
  | nil => rfl
  | cons j tl ih =>
    simp only [sumOver, List.map_cons, List.sum_cons] at *
    have hj : j ≠ i := fun h => hi (h ▸ List.mem_cons_self j tl)
    rw [ih fun h => hi (List.mem_cons_of_mem j h)]
    congr 1
    simp [updateAcct, hj]

theorem sumOver_update (g : Account → Int) (m : Accts) (i : Nat)
    (f : Account → Account) (ids : List Nat)
    (hnd : ids.Nodup) (hi : i ∈ ids) :
    sumOver g (updateAcct m i f) ids =
      sumOver g m ids + (g (f (m i)) - g (m i)) := by
  induction ids with
  | nil => cases hi
  | cons j tl ih =>
    rcases List.mem_cons.mp hi with hji | hitl
    · subst hji
      have hjtl : i ∉ tl := (List.nodup_cons.mp hnd).1
      simp only [sumOver, List.map_cons, List.sum_cons]
      rw [show ((tl.map fun k => g (updateAcct m i f k)).sum
            = (tl.map fun k => g (m k)).sum) from
          sumOver_update_not_mem g m i f tl hjtl]
      simp [updateAcct]
      ring
    · have hji : j ≠ i := by
        intro h
        exact (List.nodup_cons.mp hnd).1 (h ▸ hitl)
      simp only [sumOver, List.map_cons, List.sum_cons]
      rw [show ((tl.map fun k => g (updateAcct m i f k)).sum
            = (tl.map fun k => g (m k)).sum + (g (f (m i)) - g (m i))) from
          ih (List.nodup_cons.mp hnd).2 hitl]
      simp [updateAcct, hji]
      ring

-- ---------------------------------------------------------------------------
-- Deltas of the account bookkeeping callbacks
-- ---------------------------------------------------------------------------

theorem shares_fill (a : Account) (s : Side) (q p : Nat) :
    (Account.fill a s q p).shares = a.shares + fillSharesDelta s q := by
  cases s <;> simp [Account.fill, fillSharesDelta, Int.sub_eq_add_neg]

theorem capital_fill (a : Account) (s : Side) (q p : Nat) :
    (Account.fill a s q p).capital = a.capital + fillCapitalDelta s q p := by
  cases s <;> simp [Account.fill, fillCapitalDelta, Int.sub_eq_add_neg]

theorem shares_cancel (a : Account) (u : Nat) :
    (Account.cancel a u).shares = a.shares := rfl

theorem capital_cancel (a : Account) (u : Nat) :
    (Account.cancel a u).capital = a.capital := rfl

theorem shares_limit (a : Account) (u : Nat) :
    (Account.limit a u).shares = a.shares := rfl

theorem capital_limit (a : Account) (u : Nat) :
    (Account.limit a u).capital = a.capital := rfl

theorem fillSharesDelta_invert (s : Side) (q : Nat) :
    fillSharesDelta s q + fillSharesDelta s.invert q = 0 := by
  cases s <;> simp [fillSharesDelta, Side.invert]

theorem fillCapitalDelta_invert (s : Side) (q p : Nat) :
    fillCapitalDelta s q p + fillCapitalDelta s.invert q p = 0 := by
  cases s <;> simp [fillCapitalDelta, Side.invert]

-- ---------------------------------------------------------------------------
-- C10: the 0 sentinel of best_sell / best_buy / best
-- ---------------------------------------------------------------------------

/-- C10: `best_sell()` and `best_buy()` return 0 whenever the
corresponding side of the book is empty, and `best(side)` on an empty
book returns 0 rather than failing; consequently an empty side is
indistinguishable at this interface from a side whose best resting
level sits at price 0 (a book constructed by a zero-priced limit sell
has a non-empty sell side and still reports `best_sell() = 0`). -/
theorem best_empty_zero_sentinel :
    (∀ b : Book, b.sells = [] → Book.best_sell b = 0) ∧
    (∀ b : Book, b.buys = [] → Book.best_buy b = 0) ∧
    (∀ (b : Book) (s : Side), b.sells = [] → b.buys = [] → Book.best b s = 0) ∧
    ((Book.limit_sell {} emptyAccts 0 7 0).1.sells ≠ [] ∧
      Book.best_sell (Book.limit_sell {} emptyAccts 0 7 0).1 = 0) := by
  refine ⟨?_, ?_, ?_, by decide⟩
  · intro b h; simp [Book.best_sell, sideBest?, h]
  · intro b h; simp [Book.best_buy, sideBest?, h]
  · intro b s hs hb
    cases s
    · simp [Book.best, Book.best_sell, sideBest?, hs]
    · simp [Book.best, Book.best_buy, sideBest?, hb]

/-- Witness for `best_empty_zero_sentinel` at the empty book. -/
theorem best_empty_zero_sentinel_witness :
    Book.best_sell {} = 0 ∧ Book.best_buy {} = 0 ∧
      Book.best {} Side.sell = 0 ∧ Book.best {} Side.buy = 0 :=
  ⟨best_empty_zero_sentinel.1 {} rfl,
   best_empty_zero_sentinel.2.1 {} rfl,
   best_empty_zero_sentinel.2.2.1 {} Side.sell rfl rfl,
   best_empty_zero_sentinel.2.2.1 {} Side.buy rfl rfl⟩

-- ---------------------------------------------------------------------------
-- C6: does_cross
-- ---------------------------------------------------------------------------

/-- C6 counterexample: the source tests `best_sell() == 0`, not
emptiness of the sell side, so a book holding a resting sell at price
0 (reachable through `limit_sell` with price 0 against an empty buy
side) makes `does_cross` return false even though its sell side is
non-null and the exact sum `best_sell + spread` is below the other
book's best buy; the claimed iff fails at this input. -/
theorem does_cross_counterexample :
    does_cross_claimed (Book.limit_sell {} emptyAccts 0 1 0).1
      (Book.limit_buy {} emptyAccts 0 1 5).1 0 ∧
    Book.does_cross (Book.limit_sell {} emptyAccts 0 1 0).1
      (Book.limit_buy {} emptyAccts 0 1 5).1 0 = false := by
  constructor
  · constructor
    · decide
    · decide
  · decide

/-- C6 amended: `does_cross(other, spread)` returns true iff
`best_sell()` is non-zero and the exact mathematical sum `best_sell() +
spread` is less than `other.best_buy()`; in particular when the sum
would overflow the 64-bit price type the explicit guard returns false,
which agrees with the exact comparison because the other book's best
buy is a 64-bit price. -/
theorem does_cross_iff (a b : Book) (spread : Nat)
    (hb : b.best_buy ≤ 2 ^ 64 - 1) :
    Book.does_cross a b spread = true ↔
      a.best_sell ≠ 0 ∧ a.best_sell + spread < b.best_buy := by
  unfold Book.does_cross
  by_cases h0 : a.best_sell = 0
  · simp [h0]
  · rw [if_neg h0]
    by_cases hov : 2 ^ 64 - 1 - spread < a.best_sell
    · rw [if_pos hov]
      simp only [Bool.false_eq_true, false_iff]
      rintro ⟨-, hlt⟩
      omega
    · rw [if_neg hov]
      have hsum : a.best_sell + spread < 2 ^ 64 := by omega
      rw [Nat.mod_eq_of_lt hsum]
      by_cases hlt : a.best_sell + spread < b.best_buy
      · simp [hlt, h0]
      · simp [hlt]

-- ---------------------------------------------------------------------------
-- C9: receiver sequence handling
-- ---------------------------------------------------------------------------

theorem applyBody_congr (r r' : Receiver) (bdy : FeedBody)
    (hb : r.book = r'.book)
    (hf : r.is_session_active = r'.is_session_active) :
    (r.applyBody bdy).book = (r'.applyBody bdy).book ∧
      (r.applyBody bdy).is_session_active =
        (r'.applyBody bdy).is_session_active := by
  cases bdy with
  | startOfSession => simp [Receiver.applyBody, hb]
  | endOfSession => simp [Receiver.applyBody, hb]
  | clear => simp [Receiver.applyBody, hf]
  | addOrder uid side q p => simp [Receiver.applyBody, hb, hf]
  | deleteOrder uid =>
    simp only [Receiver.applyBody, hb]
    by_cases h : Book.has r'.book uid <;> simp [h, hb, hf]
  | trade uid q =>
    simp only [Receiver.applyBody, hb]
    by_cases h : Book.has r'.book uid <;> simp [h, hb, hf]

theorem processFeed_congr :
    ∀ (msgs1 msgs2 : List FeedMsg) (r1 r2 : Receiver),
      msgs1.map FeedMsg.body = msgs2.map FeedMsg.body →
      r1.book = r2.book →
      r1.is_session_active = r2.is_session_active →
      (processFeed r1 msgs1).book = (processFeed r2 msgs2).book ∧
        (processFeed r1 msgs1).is_session_active =
          (processFeed r2 msgs2).is_session_active := by
  intro msgs1
  induction msgs1 with
  | nil =>
    intro msgs2 r1 r2 hmap hb hf
    cases msgs2 with
    | nil => exact ⟨hb, hf⟩
    | cons m2 t2 => simp at hmap
  | cons m1 t1 ih =>
    intro msgs2 r1 r2 hmap hb hf
    cases msgs2 with
    | nil => simp at hmap
    | cons m2 t2 =>
      simp only [List.map_cons, List.cons.injEq] at hmap
      obtain ⟨hbody, htail⟩ := hmap
      have h1 : processFeed r1 (m1 :: t1)
          = processFeed (r1.read_message m1).1 t1 := rfl
      have h2 : processFeed r2 (m2 :: t2)
          = processFeed (r2.read_message m2).1 t2 := rfl
      rw [h1, h2]
      have hstep := applyBody_congr
        { r1 with last_sequence := m1.sequence }
        { r2 with last_sequence := m2.sequence } m2.body hb hf
      refine ih t2 _ _ htail ?_ ?_
      · show (Receiver.applyBody { r1 with last_sequence := m1.sequence }
            m1.body).book =
          (Receiver.applyBody { r2 with last_sequence := m2.sequence }
            m2.body).book
        rw [hbody]
        exact hstep.1
      · show (Receiver.applyBody { r1 with last_sequence := m1.sequence }
            m1.body).is_session_active =
          (Receiver.applyBody { r2 with last_sequence := m2.sequence }
            m2.body).is_session_active
        rw [hbody]
        exact hstep.2

/-- C9: the subscriber expects `last_sequence + 1` on every packet; the
gap flag is raised exactly when the observed sequence differs from
that; the new `last_sequence` is the observed sequence (resync by
adoption) and the packet is applied to the mirror book regardless; over
a whole stream the mirror book and session flag depend only on the
packet bodies, never on the sequence numbers, so a gap never causes a
packet (or any later packet) to be rejected. -/
theorem receiver_sequence_resync :
    (∀ (r : Receiver) (msg : FeedMsg),
      (r.read_message msg).2 = true ↔ msg.sequence ≠ r.last_sequence + 1) ∧
    (∀ (r : Receiver) (msg : FeedMsg),
      (r.read_message msg).1 =
        Receiver.applyBody { r with last_sequence := msg.sequence } msg.body) ∧
    (∀ (r : Receiver) (msgs1 msgs2 : List FeedMsg),
      msgs1.map FeedMsg.body = msgs2.map FeedMsg.body →
      (processFeed r msgs1).book = (processFeed r msgs2).book ∧
        (processFeed r msgs1).is_session_active =
          (processFeed r msgs2).is_session_active) := by
  refine ⟨?_, ?_, ?_⟩
  · intro r msg
    simp [Receiver.read_message]
  · intro r msg
    rfl
  · intro r msgs1 msgs2 hmap
    exact processFeed_congr msgs1 msgs2 r r hmap rfl rfl

/-- Witness for `receiver_sequence_resync`: a stream received as
sequences 1, 3 (a gap) produces the same mirror book as the same
bodies received as 1, 2. -/
theorem receiver_sequence_resync_witness :
    (processFeed {} [⟨1, FeedBody.addOrder 1 Side.buy 10 100⟩,
        ⟨3, FeedBody.deleteOrder 1⟩]).book =
      (processFeed {} [⟨1, FeedBody.addOrder 1 Side.buy 10 100⟩,
        ⟨2, FeedBody.deleteOrder 1⟩]).book :=
  (receiver_sequence_resync.2.2 {}
    [⟨1, FeedBody.addOrder 1 Side.buy 10 100⟩, ⟨3, FeedBody.deleteOrder 1⟩]
    [⟨1, FeedBody.addOrder 1 Side.buy 10 100⟩, ⟨2, FeedBody.deleteOrder 1⟩]
    rfl).1

-- ---------------------------------------------------------------------------
-- C2: uid allocation
-- ---------------------------------------------------------------------------

theorem limit_sell_uid_cases (b : Book) (m : Accts) (acct qty price : Nat) :
    ((b.limit_sell m acct qty price).2.2.1 = 0 ∧
      (b.limit_sell m acct qty price).1.sequence = b.sequence) ∨
    ((b.limit_sell m acct qty price).2.2.1 = b.sequence ∧
      (b.limit_sell m acct qty price).1.sequence = b.sequence + 1) := by
  simp only [Book.limit_sell]
  by_cases hc : b.crossesAsSell price
  · rw [if_pos hc]
    rcases hml : marketLoop .buy ⟨b.sequence, .sell, qty, price, acct⟩ b.buys
      with ⟨buys', rem, evs⟩
    by_cases hr : rem = 0
    · left; simp [hml, hr]
    · right; simp [hml, hr]
  · rw [if_neg hc]
    right; simp

theorem limit_buy_uid_cases (b : Book) (m : Accts) (acct qty price : Nat) :
    ((b.limit_buy m acct qty price).2.2.1 = 0 ∧
      (b.limit_buy m acct qty price).1.sequence = b.sequence) ∨
    ((b.limit_buy m acct qty price).2.2.1 = b.sequence ∧
      (b.limit_buy m acct qty price).1.sequence = b.sequence + 1) := by
  simp only [Book.limit_buy]
  by_cases hc : b.crossesAsBuy price
  · rw [if_pos hc]
    rcases hml : marketLoop .sell ⟨b.sequence, .buy, qty, price, acct⟩ b.sells
      with ⟨sells', rem, evs⟩
    by_cases hr : rem = 0
    · left; simp [hml, hr]
    · right; simp [hml, hr]
  · rw [if_neg hc]
    right; simp

theorem market_sequence (b : Book) (m : Accts) (acct : Nat) (side : Side)
    (qty : Nat) : (b.market m acct side qty).1.sequence = b.sequence := by
  cases side <;> rfl

theorem cancel_sequence (b : Book) (m : Accts) (uid : Nat) :
    (b.cancel m uid).1.sequence = b.sequence := by
  simp only [Book.cancel]
  cases h : b.findOrder? uid with
  | none => rfl
  | some o => cases ho : o.side <;> simp [ho]

theorem reduce_sequence (b : Book) (m : Accts) (uid q : Nat) (b' : Book)
    (m' : Accts) (h : b.reduce m uid q = .ok b' m') :
    b'.sequence = b.sequence := by
  cases hf : b.findOrder? uid with
  | none => simp [Book.reduce, hf] at h
  | some o =>
    cases ho : o.side <;>
      (simp only [Book.reduce, hf, ho] at h
       split at h
       · exact absurd h (by simp)
       · split at h <;> (injection h with hb1 hm1; subst hb1; rfl))

theorem stepOp_uid_cases (st : Book × Accts) (op : Op) :
    ((stepOp st op).2.getD 0 = 0 ∧
      (stepOp st op).1.1.sequence = st.1.sequence) ∨
    ((stepOp st op).2 = some st.1.sequence ∧
      (stepOp st op).1.1.sequence = st.1.sequence + 1) := by
  cases op with
  | limitOp a s q p =>
    cases s
    · rcases limit_sell_uid_cases st.1 st.2 a q p with ⟨h1, h2⟩ | ⟨h1, h2⟩
      · left; simp [stepOp, Book.limit, h1, h2]
      · right; simp [stepOp, Book.limit, h1, h2]
    · rcases limit_buy_uid_cases st.1 st.2 a q p with ⟨h1, h2⟩ | ⟨h1, h2⟩
      · left; simp [stepOp, Book.limit, h1, h2]
      · right; simp [stepOp, Book.limit, h1, h2]
  | marketOp a s q =>
    left; simp [stepOp, market_sequence]
  | cancelOp uid =>
    left; simp [stepOp, cancel_sequence]
  | reduceOp uid q =>
    left
    cases h : st.1.reduce st.2 uid q with
    | ok b' m' => simp [stepOp, h, reduce_sequence st.1 st.2 uid q b' m' h]
    | insufficient => simp [stepOp, h]
    | notFound => simp [stepOp, h]

theorem runOps_uid_range :
    ∀ (ops : List Op) (st : Book × Accts), 1 ≤ st.1.sequence →
      ∃ k, (runOps st ops).2.filter (fun u => u != 0)
        = List.range' st.1.sequence k := by
  intro ops
  induction ops with
  | nil => intro st h1; exact ⟨0, rfl⟩
  | cons op tl ih =>
    intro st h1
    rcases stepOp_uid_cases st op with ⟨h1u, h2u⟩ | ⟨h1u, h2u⟩
    · cases hu : (stepOp st op).2 with
      | none =>
        obtain ⟨k, hk⟩ := ih (stepOp st op).1 (h2u ▸ h1)
        refine ⟨k, ?_⟩
        simp only [runOps, hu, List.nil_append, List.filter_append]
        rw [hk, h2u]
      | some u =>
        rw [hu] at h1u
        simp only [Option.getD_some] at h1u
        subst h1u
        obtain ⟨k, hk⟩ := ih (stepOp st op).1 (h2u ▸ h1)
        refine ⟨k, ?_⟩
        simp only [runOps, hu, List.filter_append]
        rw [hk, h2u]
        simp
    · obtain ⟨k, hk⟩ := ih (stepOp st op).1 (by omega)
      refine ⟨k + 1, ?_⟩
      simp only [runOps, h1u, List.filter_append]
      rw [hk, h2u]
      have hne : (st.1.sequence != 0) = true := by
        simp only [bne_iff_ne, ne_eq]
        omega
      simp only [List.filter_cons, hne, List.filter_nil, if_true]
      rw [List.range']
      simp

/-- C2 counterexample: a fully consumed incoming limit returns uid 0
but does NOT advance the uid counter (the claim says the reserved uid
is consumed and the counter not rewound, so that gaps appear): after a
resting buy takes uid 1, a crossing sell that is fully consumed on
entry returns 0 and leaves the counter at 2, and the next limit order
is handed the very uid 2 that had been reserved for the consumed
order, so the observable uid sequence is 1, 0, 2 with no gap. -/
theorem uid_counter_counterexample :
    (Book.limit_sell (Book.limit_buy {} emptyAccts 0 10 100).1
      (Book.limit_buy {} emptyAccts 0 10 100).2.1 1 10 100).2.2.1 = 0 ∧
    (Book.limit_sell (Book.limit_buy {} emptyAccts 0 10 100).1
      (Book.limit_buy {} emptyAccts 0 10 100).2.1 1 10 100).1.sequence = 2 ∧
    ¬ ((Book.limit_sell (Book.limit_buy {} emptyAccts 0 10 100).1
      (Book.limit_buy {} emptyAccts 0 10 100).2.1 1 10 100).1.sequence = 3) ∧
    (Book.limit_buy
      (Book.limit_sell (Book.limit_buy {} emptyAccts 0 10 100).1
        (Book.limit_buy {} emptyAccts 0 10 100).2.1 1 10 100).1
      (Book.limit_sell (Book.limit_buy {} emptyAccts 0 10 100).1
        (Book.limit_buy {} emptyAccts 0 10 100).2.1 1 10 100).2.1
      0 5 50).2.2.1 = 2 := by
  refine ⟨by decide, by decide, by decide, by decide⟩

/-- C2 amended: every limit operation either returns uid 0 with the
counter unchanged (the incoming order was fully consumed on entry, and
the reserved uid value is released back to the counter), or returns
the current counter value and advances it by one; hence over any run
of operations the non-zero uids handed out are exactly the consecutive
values counter, counter+1, ... — strictly monotonic, never reused
within the session, and with no gaps. -/
theorem uid_allocation :
    (∀ (b : Book) (m : Accts) (acct : Nat) (side : Side) (qty price : Nat),
      ((b.limit m acct side qty price).2.2.1 = 0 ∧
        (b.limit m acct side qty price).1.sequence = b.sequence) ∨
      ((b.limit m acct side qty price).2.2.1 = b.sequence ∧
        (b.limit m acct side qty price).1.sequence = b.sequence + 1)) ∧
    (∀ (ops : List Op) (b : Book) (m : Accts), 1 ≤ b.sequence →
      ∃ k, (runOps (b, m) ops).2.filter (fun u => u != 0)
        = List.range' b.sequence k) := by
  constructor
  · intro b m acct side qty price
    cases side
    · exact limit_sell_uid_cases b m acct qty price
    · exact limit_buy_uid_cases b m acct qty price
  · intro ops b m h1
    exact runOps_uid_range ops (b, m) h1

/-- Witness for `uid_allocation`: the run buy, crossing sell, buy hands
out the non-zero uids 1 and 2 consecutively. -/
theorem uid_allocation_witness :
    ∃ k, (runOps ({}, emptyAccts)
        [Op.limitOp 0 Side.buy 10 100, Op.limitOp 1 Side.sell 10 100,
         Op.limitOp 0 Side.buy 5 50]).2.filter (fun u => u != 0)
      = List.range' (1 : Nat) k :=
  uid_allocation.2
    [Op.limitOp 0 Side.buy 10 100, Op.limitOp 1 Side.sell 10 100,
     Op.limitOp 0 Side.buy 5 50] {} emptyAccts (by decide)

-- ---------------------------------------------------------------------------
-- C7: replace handling
-- ---------------------------------------------------------------------------

theorem findOrder?_uid (b : Book) (uid : Nat) (o : Order)
    (h : b.findOrder? uid = some o) : o.uid = uid := by
  simp only [Book.findOrder?] at h
  cases hs : b.sells.find? (fun x => x.uid == uid) with
  | some o' =>
    simp only [hs, Option.some.injEq] at h
    subst h
    simpa using List.find?_some hs
  | none =>
    simp only [hs] at h
    simpa using List.find?_some h

theorem findOrder?_mem (b : Book) (uid : Nat) (o : Order)
    (h : b.findOrder? uid = some o) : o ∈ b.sells ∨ o ∈ b.buys := by
  simp only [Book.findOrder?] at h
  cases hs : b.sells.find? (fun x => x.uid == uid) with
  | some o' =>
    simp only [hs, Option.some.injEq] at h
    subst h
    exact Or.inl (List.mem_of_find?_eq_some hs)
  | none =>
    simp only [hs] at h
    exact Or.inr (List.mem_of_find?_eq_some h)

-- ---------------------------------------------------------------------------
-- C5: reduce
-- ---------------------------------------------------------------------------

theorem sumBy_updateFirstUid (g : Order → Nat) :
    ∀ (tree : List Order) (uid : Nat) (f : Order → Order) (o : Order),
      tree.find? (fun x => x.uid == uid) = some o →
      ((updateFirstUid tree uid f).map g).sum + g o
        = (tree.map g).sum + g (f o) := by
  intro tree
  induction tree with
  | nil => intro uid f o h; simp at h
  | cons hd tl ih =>
    intro uid f o h
    by_cases hu : hd.uid = uid
    · have hp : (fun (x : Order) => x.uid == uid) hd = true := by simpa using hu
      rw [@List.find?_cons_of_pos Order (fun x => x.uid == uid) hd tl hp] at h
      cases h
      simp only [updateFirstUid, if_pos hu, List.map_cons, List.sum_cons]
      omega
    · have hp : ¬ ((fun (x : Order) => x.uid == uid) hd = true) := by
        simpa using hu
      rw [@List.find?_cons_of_neg Order (fun x => x.uid == uid) hd tl hp] at h
      simp only [updateFirstUid, if_neg hu, List.map_cons, List.sum_cons]
      have := ih uid f o h
      omega

theorem find?_updateFirstUid :
    ∀ (tree : List Order) (uid : Nat) (f : Order → Order) (o : Order),
      tree.find? (fun x => x.uid == uid) = some o →
      (∀ x, (f x).uid = x.uid) →
      (updateFirstUid tree uid f).find? (fun x => x.uid == uid)
        = some (f o) := by
  intro tree
  induction tree with
  | nil => intro uid f o h hf; simp at h
  | cons hd tl ih =>
    intro uid f o h hf
    by_cases hu : hd.uid = uid
    · have hp : (fun (x : Order) => x.uid == uid) hd = true := by simpa using hu
      rw [@List.find?_cons_of_pos Order (fun x => x.uid == uid) hd tl hp] at h
      cases h
      simp only [updateFirstUid, if_pos hu]
      exact @List.find?_cons_of_pos Order (fun x => x.uid == uid) (f hd)
        tl (by simp [hf, hu])
    · have hp : ¬ ((fun (x : Order) => x.uid == uid) hd = true) := by
        simpa using hu
      rw [@List.find?_cons_of_neg Order (fun x => x.uid == uid) hd tl hp] at h
      simp only [updateFirstUid, if_neg hu]
      rw [@List.find?_cons_of_neg Order (fun x => x.uid == uid) hd
        (updateFirstUid tl uid f) hp]
      exact ih uid f o h hf

theorem removeUid_updateFirstUid :
    ∀ (tree : List Order) (uid : Nat) (f : Order → Order),
      (∀ x, (f x).uid = x.uid) →
      removeUid (updateFirstUid tree uid f) uid = removeUid tree uid := by
  intro tree
  induction tree with
  | nil => intro uid f hf; rfl
  | cons hd tl ih =>
    intro uid f hf
    by_cases hu : hd.uid = uid
    · simp only [updateFirstUid, if_pos hu, removeUid, hf hd, if_pos hu]
    · simp only [updateFirstUid, if_neg hu, removeUid, if_neg hu]
      rw [ih uid f hf]

theorem length_updateFirstUid :
    ∀ (tree : List Order) (uid : Nat) (f : Order → Order),
      (updateFirstUid tree uid f).length = tree.length := by
  intro tree
  induction tree with
  | nil => intro uid f; rfl
  | cons hd tl ih =>
    intro uid f
    by_cases hu : hd.uid = uid
    · simp [updateFirstUid, if_pos hu]
    · simp [updateFirstUid, if_neg hu, ih]

theorem volumeAt_eq_sumBy :
    ∀ (tree : List Order) (p : Nat),
      volumeAt tree p
        = (tree.map fun x => if x.price = p then x.quantity else 0).sum := by
  intro tree p
  induction tree with
  | nil => rfl
  | cons hd tl ih =>
    by_cases hp : hd.price = p
    · simp [volumeAt, List.filter_cons, hp, ih, volumeAt] at *
      simp [hp, ih]
    · simp only [volumeAt, List.filter_cons] at *
      simp [hp, ih]

theorem findOrder?_split (b : Book) (uid : Nat) (o : Order)
    (h : b.findOrder? uid = some o) :
    b.sells.find? (fun x => x.uid == uid) = some o ∨
      (b.sells.find? (fun x => x.uid == uid) = none ∧
        b.buys.find? (fun x => x.uid == uid) = some o) := by
  simp only [Book.findOrder?] at h
  cases hs : b.sells.find? (fun x => x.uid == uid) with
  | some o' =>
    simp only [hs, Option.some.injEq] at h
    subst h
    exact Or.inl rfl
  | none =>
    simp only [hs] at h
    exact Or.inr ⟨rfl, h⟩

theorem removeUid_all_ne :
    ∀ (tree : List Order) (uid : Nat),
      tree.countP (fun x => x.uid == uid) ≤ 1 →
      ∀ x ∈ removeUid tree uid, x.uid ≠ uid := by
  intro tree
  induction tree with
  | nil => intro uid h x hx; simp [removeUid] at hx
  | cons hd tl ih =>
    intro uid h x hx
    by_cases hu : hd.uid = uid
    · rw [removeUid, if_pos hu] at hx
      have hcnt : tl.countP (fun x => x.uid == uid) = 0 := by
        rw [List.countP_cons_of_pos (fun x => x.uid == uid) tl
          (by simpa using hu)] at h
        omega
      have := List.countP_eq_zero.mp hcnt x hx
      simpa using this
    · rw [removeUid, if_neg hu] at hx
      rw [List.countP_cons_of_neg (fun x => x.uid == uid) tl
        (by simpa using hu)] at h
      rcases List.mem_cons.mp hx with hxh | hxt
      · exact hxh ▸ hu
      · exact ih uid h x hxt

theorem not_mem_erase_of_count_le_one (l : List Nat) (u : Nat)
    (h : l.count u ≤ 1) : u ∉ l.erase u := by
  intro hmem
  have h1 : (l.erase u).count u = l.count u - 1 := List.count_erase_self u l
  have h2 : 0 < (l.erase u).count u := List.count_pos_iff.mpr hmem
  omega

theorem countP_pos_of_find?_some (tree : List Order) (uid : Nat) (o : Order)
    (h : tree.find? (fun x => x.uid == uid) = some o) :
    0 < tree.countP (fun x => x.uid == uid) := by
  refine List.countP_pos_iff.mpr ⟨o, List.mem_of_find?_eq_some h, ?_⟩
  have hpa := List.find?_some h
  simpa using hpa

/-- C5: for a resting order `o` found under `uid` in a well-formed
book: reducing by less than the remaining quantity keeps the order
with its quantity lowered by the delta, lowers its side's total volume
and its price level's volume by the delta, keeps the counts and the
accounts untouched; reducing by exactly the remaining quantity is the
same as `cancel`, which removes the order from the book and from its
account's active set; reducing by more fails with the
insufficient-quantity error — the source throws before mutating, so
the order and all book totals are untouched in that case. -/
theorem reduce_semantics (b : Book) (m : Accts) (uid q : Nat) (o : Order)
    (hfind : b.findOrder? uid = some o)
    (hwfs : ∀ x ∈ b.sells, x.side = Side.sell)
    (hwfb : ∀ x ∈ b.buys, x.side = Side.buy)
    (hbuniq : b.sells.countP (fun x => x.uid == uid)
      + b.buys.countP (fun x => x.uid == uid) ≤ 1)
    (hauniq : ((m o.account).orders).count uid ≤ 1) :
    (q < o.quantity →
      ∃ b1, b.reduce m uid q = .ok b1 m ∧
        b1.findOrder? uid = some { o with quantity := o.quantity - q } ∧
        b1.volume_sell + (if o.side = Side.sell then q else 0)
          = b.volume_sell ∧
        b1.volume_buy + (if o.side = Side.buy then q else 0)
          = b.volume_buy ∧
        (o.side = Side.sell →
          volumeAt b1.sells o.price + q = volumeAt b.sells o.price) ∧
        (o.side = Side.buy →
          volumeAt b1.buys o.price + q = volumeAt b.buys o.price) ∧
        b1.count_sell = b.count_sell ∧ b1.count_buy = b.count_buy) ∧
    (q = o.quantity →
      b.reduce m uid q = .ok (b.cancel m uid).1 (b.cancel m uid).2 ∧
      Book.has (b.cancel m uid).1 uid = false ∧
      uid ∉ ((b.cancel m uid).2 o.account).orders) ∧
    (o.quantity < q → b.reduce m uid q = ReduceResult.insufficient) := by
  have hsplit := findOrder?_split b uid o hfind
  refine ⟨?_, ?_, ?_⟩
  · -- q strictly below the remaining quantity
    intro hq
    have hq' : ¬ o.quantity < q := by omega
    have hz : ¬ (o.quantity - q = 0) := by omega
    cases ho : o.side with
    | sell =>
      have hfS : b.sells.find? (fun x => x.uid == uid) = some o := by
        rcases hsplit with h | ⟨h1, h2⟩
        · exact h
        · have : o.side = Side.buy := hwfb o (List.mem_of_find?_eq_some h2)
          rw [ho] at this
          exact absurd this (by simp)
      refine ⟨{ b with sells := updateFirstUid b.sells uid fun x => { x with quantity := x.quantity - q } }, ?_, ?_, ?_, ?_, ?_, ?_, ?_, ?_⟩
      · simp only [Book.reduce, hfind, ho, if_neg hq', if_neg hz]
      · simp only [Book.findOrder?]
        rw [find?_updateFirstUid b.sells uid
          (fun x => { x with quantity := x.quantity - q }) o hfS
          (fun x => rfl)]
        simp [ho]
      · have hs := sumBy_updateFirstUid Order.quantity b.sells uid
          (fun x => { x with quantity := x.quantity - q }) o hfS
        have hs' : (List.map Order.quantity (updateFirstUid b.sells uid fun x => { x with quantity := x.quantity - q })).sum + o.quantity = (List.map Order.quantity b.sells).sum + (o.quantity - q) := by
          simpa using hs
        show treeVolume (updateFirstUid b.sells uid fun x => { x with quantity := x.quantity - q }) + q = treeVolume b.sells
        simp only [treeVolume]
        omega
      · show treeVolume b.buys + 0 = treeVolume b.buys
        omega
      · intro
        have hs := sumBy_updateFirstUid
          (fun x => if x.price = o.price then x.quantity else 0) b.sells uid
          (fun x => { x with quantity := x.quantity - q }) o hfS
        have hs' : (List.map (fun x => if x.price = o.price then x.quantity else 0) (updateFirstUid b.sells uid fun x => { x with quantity := x.quantity - q })).sum + o.quantity = (List.map (fun x => if x.price = o.price then x.quantity else 0) b.sells).sum + (o.quantity - q) := by
          simpa using hs
        show volumeAt (updateFirstUid b.sells uid fun x => { x with quantity := x.quantity - q }) o.price + q = volumeAt b.sells o.price
        rw [volumeAt_eq_sumBy, volumeAt_eq_sumBy]
        omega
      · intro h; exact absurd h (by simp)
      · show (updateFirstUid b.sells uid fun x => { x with quantity := x.quantity - q }).length = b.sells.length
        exact length_updateFirstUid b.sells uid _
      · rfl
    | buy =>
      have hfB : b.sells.find? (fun x => x.uid == uid) = none ∧
          b.buys.find? (fun x => x.uid == uid) = some o := by
        rcases hsplit with h | hh
        · have : o.side = Side.sell := hwfs o (List.mem_of_find?_eq_some h)
          rw [ho] at this
          exact absurd this (by simp)
        · exact hh
      refine ⟨{ b with buys := updateFirstUid b.buys uid fun x => { x with quantity := x.quantity - q } }, ?_, ?_, ?_, ?_, ?_, ?_, ?_, ?_⟩
      · simp only [Book.reduce, hfind, ho, if_neg hq', if_neg hz]
      · simp only [Book.findOrder?, hfB.1]
        rw [find?_updateFirstUid b.buys uid
          (fun x => { x with quantity := x.quantity - q }) o hfB.2
          (fun x => rfl)]
        simp [ho]
      · show treeVolume b.sells + 0 = treeVolume b.sells
        omega
      · have hs := sumBy_updateFirstUid Order.quantity b.buys uid
          (fun x => { x with quantity := x.quantity - q }) o hfB.2
        have hs' : (List.map Order.quantity (updateFirstUid b.buys uid fun x => { x with quantity := x.quantity - q })).sum + o.quantity = (List.map Order.quantity b.buys).sum + (o.quantity - q) := by
          simpa using hs
        show treeVolume (updateFirstUid b.buys uid fun x => { x with quantity := x.quantity - q }) + q = treeVolume b.buys
        simp only [treeVolume]
        omega
      · intro h; exact absurd h (by simp)
      · intro
        have hs := sumBy_updateFirstUid
          (fun x => if x.price = o.price then x.quantity else 0) b.buys uid
          (fun x => { x with quantity := x.quantity - q }) o hfB.2
        have hs' : (List.map (fun x => if x.price = o.price then x.quantity else 0) (updateFirstUid b.buys uid fun x => { x with quantity := x.quantity - q })).sum + o.quantity = (List.map (fun x => if x.price = o.price then x.quantity else 0) b.buys).sum + (o.quantity - q) := by
          simpa using hs
        show volumeAt (updateFirstUid b.buys uid fun x => { x with quantity := x.quantity - q }) o.price + q = volumeAt b.buys o.price
        rw [volumeAt_eq_sumBy, volumeAt_eq_sumBy]
        omega
      · rfl
      · show (updateFirstUid b.buys uid fun x => { x with quantity := x.quantity - q }).length = b.buys.length
        exact length_updateFirstUid b.buys uid _
  · -- q equal to the remaining quantity: behaves as cancel
    intro hq
    subst hq
    have hq' : ¬ o.quantity < o.quantity := by omega
    have hz : o.quantity - o.quantity = 0 := by omega
    constructor
    · cases ho : o.side with
      | sell =>
        simp only [Book.reduce, hfind, ho, if_neg hq', if_pos hz,
          Book.cancel]
        rw [removeUid_updateFirstUid b.sells uid
          (fun x => { x with quantity := x.quantity - o.quantity })
          (fun x => rfl)]
      | buy =>
        simp only [Book.reduce, hfind, ho, if_neg hq', if_pos hz,
          Book.cancel]
        rw [removeUid_updateFirstUid b.buys uid
          (fun x => { x with quantity := x.quantity - o.quantity })
          (fun x => rfl)]
    constructor
    · -- the order is gone from the book
      cases ho : o.side with
      | sell =>
        have hfS : b.sells.find? (fun x => x.uid == uid) = some o := by
          rcases hsplit with h | ⟨h1, h2⟩
          · exact h
          · have : o.side = Side.buy := hwfb o (List.mem_of_find?_eq_some h2)
            rw [ho] at this
            exact absurd this (by simp)
        have hcntb : b.buys.countP (fun x => x.uid == uid) = 0 := by
          have := countP_pos_of_find?_some b.sells uid o hfS
          omega
        have hrm : ∀ x ∈ removeUid b.sells uid, x.uid ≠ uid :=
          removeUid_all_ne b.sells uid (by omega)
        simp only [Book.has, Book.cancel, hfind, ho]
        simp only [Book.findOrder?]
        rw [List.find?_eq_none.mpr (by intro x hx; simpa using hrm x hx)]
        rw [List.find?_eq_none.mpr (by
          intro x hx
          have := List.countP_eq_zero.mp hcntb x hx
          simpa using this)]
        rfl
      | buy =>
        have hfB : b.sells.find? (fun x => x.uid == uid) = none ∧
            b.buys.find? (fun x => x.uid == uid) = some o := by
          rcases hsplit with h | hh
          · have : o.side = Side.sell := hwfs o (List.mem_of_find?_eq_some h)
            rw [ho] at this
            exact absurd this (by simp)
          · exact hh
        have hrm : ∀ x ∈ removeUid b.buys uid, x.uid ≠ uid := by
          refine removeUid_all_ne b.buys uid ?_
          omega
        simp only [Book.has, Book.cancel, hfind, ho]
        simp only [Book.findOrder?, hfB.1]
        rw [List.find?_eq_none.mpr (by intro x hx; simpa using hrm x hx)]
        rfl
    · -- the order is gone from the account's active set
      simp only [Book.cancel, hfind]
      cases ho : o.side with
      | sell =>
        simp only [ho, updateAcct, if_pos rfl, Account.cancel]
        exact not_mem_erase_of_count_le_one _ _ hauniq
      | buy =>
        simp only [ho, updateAcct, if_pos rfl, Account.cancel]
        exact not_mem_erase_of_count_le_one _ _ hauniq
  · -- q above the remaining quantity: the insufficient-quantity error
    intro hq
    simp only [Book.reduce, hfind, if_pos hq]

/-- Witness for `reduce_semantics`: reduce 20 then 30 then an
over-large 70 on a resting 50-share sell order. -/
theorem reduce_semantics_witness :
    (20 < 50 ∧ (∃ b1, Book.reduce (Book.limit_sell {} emptyAccts 0 50 3000).1
        (Book.limit_sell {} emptyAccts 0 50 3000).2.1 1 20
        = .ok b1 (Book.limit_sell {} emptyAccts 0 50 3000).2.1 ∧
      b1.findOrder? 1 = some ⟨1, Side.sell, 30, 3000, 0⟩ ∧
      b1.volume_sell + 20 = (Book.limit_sell {} emptyAccts 0 50 3000).1.volume_sell)) ∧
    (50 < 70 → Book.reduce (Book.limit_sell {} emptyAccts 0 50 3000).1
        (Book.limit_sell {} emptyAccts 0 50 3000).2.1 1 70
      = ReduceResult.insufficient) := by
  have hfind : (Book.limit_sell {} emptyAccts 0 50 3000).1.findOrder? 1
      = some ⟨1, Side.sell, 50, 3000, 0⟩ := by decide
  have h := reduce_semantics (Book.limit_sell {} emptyAccts 0 50 3000).1
    (Book.limit_sell {} emptyAccts 0 50 3000).2.1 1 20
    ⟨1, Side.sell, 50, 3000, 0⟩ hfind (by decide) (by decide) (by decide)
    (by decide)
  have h70 := reduce_semantics (Book.limit_sell {} emptyAccts 0 50 3000).1
    (Book.limit_sell {} emptyAccts 0 50 3000).2.1 1 70
    ⟨1, Side.sell, 50, 3000, 0⟩ (by decide) (by decide) (by decide) (by decide)
    (by decide)
  constructor
  · refine ⟨by omega, ?_⟩
    obtain ⟨b1, h1, h2, h3, h4, h5, h6, h7, h8⟩ := h.1 (by decide)
    refine ⟨b1, h1, h2, ?_⟩
    simpa using h3
  · intro h'
    exact h70.2.2 (by decide)

-- ---------------------------------------------------------------------------
-- The matching loop: trace membership and tree preservation
-- ---------------------------------------------------------------------------

theorem marketLoopF_trace_lim :
    ∀ (fuel : Nat) (ts : Side) (taker : Order) (tree : List Order),
      ∀ e ∈ (marketLoopF fuel ts taker tree).2.2,
        ∃ o ∈ tree, e.lim.uid = o.uid ∧ e.lim.side = o.side ∧
          e.lim.price = o.price ∧ e.lim.account = o.account := by
  intro fuel
  induction fuel with
  | zero => intro ts taker tree e he; simp [marketLoopF] at he
  | succ fuel ih =>
    intro ts taker tree e he
    rw [marketLoopF] at he
    by_cases hq : taker.quantity = 0
    · rw [if_pos hq] at he; simp at he
    · rw [if_neg hq] at he
      cases hbest : sideBest? ts tree with
      | none => simp only [hbest] at he; simp at he
      | some best =>
        simp only [hbest] at he
        by_cases hpo : priceOk ts taker.price best
        · rw [if_pos hpo] at he
          cases hpop : popFirstAt best tree with
          | none => simp only [hpop] at he; simp at he
          | some pr =>
            obtain ⟨maker, rest⟩ := pr
            simp only [hpop] at he
            obtain ⟨hmem, hprice, hsub⟩ := popFirstAt_some best tree rest maker hpop
            by_cases h1 : maker.quantity < taker.quantity
            · rw [if_pos h1] at he
              rcases hml : marketLoopF fuel ts
                  { taker with quantity := taker.quantity - maker.quantity }
                  rest with ⟨tree', rem, evs⟩
              simp only [hml, List.mem_cons] at he
              rcases he with he | he | he
              · subst he; exact ⟨maker, hmem, rfl, rfl, rfl, rfl⟩
              · subst he; exact ⟨maker, hmem, rfl, rfl, rfl, rfl⟩
              · have he' : e ∈ (marketLoopF fuel ts
                    { taker with quantity := taker.quantity - maker.quantity }
                    rest).2.2 := by rw [hml]; exact he
                obtain ⟨o, homem, e1, e2, e3, e4⟩ := ih ts _ rest e he'
                exact ⟨o, hsub o homem, e1, e2, e3, e4⟩
            · rw [if_neg h1] at he
              by_cases h2 : maker.quantity = taker.quantity
              · rw [if_pos h2] at he
                simp only [List.mem_cons, List.mem_singleton] at he
                rcases he with he | he | he
                · subst he; exact ⟨maker, hmem, rfl, rfl, rfl, rfl⟩
                · subst he; exact ⟨maker, hmem, rfl, rfl, rfl, rfl⟩
                · simp at he
              · rw [if_neg h2] at he
                simp only [List.mem_cons, List.mem_singleton] at he
                rcases he with he | he | he
                · subst he; exact ⟨maker, hmem, rfl, rfl, rfl, rfl⟩
                · subst he; exact ⟨maker, hmem, rfl, rfl, rfl, rfl⟩
                · simp at he
        · rw [if_neg hpo] at he; simp at he

theorem marketLoopF_tree_pres (P : Order → Prop)
    (hP : ∀ (o : Order) (q : Nat), P o → P { o with quantity := q }) :
    ∀ (fuel : Nat) (ts : Side) (taker : Order) (tree : List Order),
      (∀ o ∈ tree, P o) →
      ∀ o ∈ (marketLoopF fuel ts taker tree).1, P o := by
  intro fuel
  induction fuel with
  | zero => intro ts taker tree htree o hom; exact htree o hom
  | succ fuel ih =>
    intro ts taker tree htree o hom
    rw [marketLoopF] at hom
    by_cases hq : taker.quantity = 0
    · rw [if_pos hq] at hom; exact htree o hom
    · rw [if_neg hq] at hom
      cases hbest : sideBest? ts tree with
      | none => simp only [hbest] at hom; exact htree o hom
      | some best =>
        simp only [hbest] at hom
        by_cases hpo : priceOk ts taker.price best
        · rw [if_pos hpo] at hom
          cases hpop : popFirstAt best tree with
          | none => simp only [hpop] at hom; exact htree o hom
          | some pr =>
            obtain ⟨maker, rest⟩ := pr
            simp only [hpop] at hom
            obtain ⟨hmem, hprice, hsub⟩ := popFirstAt_some best tree rest maker hpop
            by_cases h1 : maker.quantity < taker.quantity
            · rw [if_pos h1] at hom
              rcases hml : marketLoopF fuel ts
                  { taker with quantity := taker.quantity - maker.quantity }
                  rest with ⟨tree', rem, evs⟩
              simp only [hml] at hom
              have hom' : o ∈ (marketLoopF fuel ts
                  { taker with quantity := taker.quantity - maker.quantity }
                  rest).1 := by rw [hml]; exact hom
              exact ih ts _ rest (fun x hx => htree x (hsub x hx)) o hom'
            · rw [if_neg h1] at hom
              by_cases h2 : maker.quantity = taker.quantity
              · rw [if_pos h2] at hom
                exact htree o (hsub o hom)
              · rw [if_neg h2] at hom
                rcases List.mem_cons.mp hom with ho | ho
                · subst ho
                  exact hP maker (maker.quantity - taker.quantity)
                    (htree maker hmem)
                · exact htree o (hsub o ho)
        · rw [if_neg hpo] at hom; exact htree o hom

-- ---------------------------------------------------------------------------
-- Conservation of account observables through the matching loop
-- ---------------------------------------------------------------------------

theorem g_limitFill (g : Account → Int) (δ : Side → Nat → Nat → Int)
    (hfill : ∀ a s q p, g (Account.fill a s q p) = g a + δ s q p)
    (hcancel : ∀ a u, g (Account.cancel a u) = g a)
    (a : Account) (lim mkt : Order) :
    g (Account.limitFill a lim mkt) = g a + δ lim.side lim.quantity lim.price := by
  rw [Account.limitFill, hfill, hcancel]

theorem g_limitPartial (g : Account → Int) (δ : Side → Nat → Nat → Int)
    (hfill : ∀ a s q p, g (Account.fill a s q p) = g a + δ s q p)
    (a : Account) (lim mkt : Order) :
    g (Account.limitPartial a lim mkt)
      = g a + δ lim.side mkt.quantity lim.price := by
  rw [Account.limitPartial, hfill]

theorem g_marketFill (g : Account → Int) (δ : Side → Nat → Nat → Int)
    (hfill : ∀ a s q p, g (Account.fill a s q p) = g a + δ s q p)
    (a : Account) (lim mkt : Order) :
    g (Account.marketFill a lim mkt)
      = g a + δ mkt.side mkt.quantity lim.price := by
  rw [Account.marketFill, hfill]

theorem g_marketPartial (g : Account → Int) (δ : Side → Nat → Nat → Int)
    (hfill : ∀ a s q p, g (Account.fill a s q p) = g a + δ s q p)
    (a : Account) (lim mkt : Order) :
    g (Account.marketPartial a lim mkt)
      = g a + δ mkt.side lim.quantity lim.price := by
  rw [Account.marketPartial, hfill]

theorem conserve_marketLoopF (g : Account → Int) (δ : Side → Nat → Nat → Int)
    (hfill : ∀ a s q p, g (Account.fill a s q p) = g a + δ s q p)
    (hcancel : ∀ a u, g (Account.cancel a u) = g a)
    (hinv : ∀ s q p, δ s q p + δ s.invert q p = 0) :
    ∀ (fuel : Nat) (ts : Side) (taker : Order) (tree : List Order)
      (m : Accts) (ids : List Nat),
      ids.Nodup → taker.account ∈ ids → taker.side = ts.invert →
      (∀ o ∈ tree, o.side = ts ∧ o.account ∈ ids) →
      sumOver g (applyEvents m (marketLoopF fuel ts taker tree).2.2) ids
        = sumOver g m ids := by
  intro fuel
  induction fuel with
  | zero => intro ts taker tree m ids hnd hk hts htree; rfl
  | succ fuel ih =>
    intro ts taker tree m ids hnd hk hts htree
    rcases hres : marketLoopF (fuel + 1) ts taker tree with ⟨tree₁, rem₁, evs₁⟩
    show sumOver g (applyEvents m evs₁) ids = sumOver g m ids
    rw [marketLoopF] at hres
    by_cases hq : taker.quantity = 0
    · rw [if_pos hq] at hres
      simp only [Prod.mk.injEq] at hres
      obtain ⟨-, -, h3⟩ := hres
      subst h3
      rfl
    · rw [if_neg hq] at hres
      cases hbest : sideBest? ts tree with
      | none =>
        simp only [hbest, Prod.mk.injEq] at hres
        obtain ⟨-, -, h3⟩ := hres
        subst h3
        rfl
      | some best =>
        simp only [hbest] at hres
        by_cases hpo : priceOk ts taker.price best
        · rw [if_pos hpo] at hres
          cases hpop : popFirstAt best tree with
          | none =>
            simp only [hpop, Prod.mk.injEq] at hres
            obtain ⟨-, -, h3⟩ := hres
            subst h3
            rfl
          | some pr =>
            obtain ⟨maker, rest⟩ := pr
            simp only [hpop] at hres
            obtain ⟨hmem, hprice, hsub⟩ := popFirstAt_some best tree rest maker hpop
            obtain ⟨hmside, hmacct⟩ := htree maker hmem
            have hrest : ∀ o ∈ rest, o.side = ts ∧ o.account ∈ ids :=
              fun x hx => htree x (hsub x hx)
            by_cases h1 : maker.quantity < taker.quantity
            · rw [if_pos h1] at hres
              rcases hml : marketLoopF fuel ts
                  { taker with quantity := taker.quantity - maker.quantity }
                  rest with ⟨tree₂, rem₂, evs₂⟩
              simp only [hml, Prod.mk.injEq] at hres
              obtain ⟨-, -, h3⟩ := hres
              subst h3
              show sumOver g (applyEvents (applyEvent (applyEvent m
                  (FillEvent.limitFill maker
                    { taker with quantity := taker.quantity - maker.quantity }))
                  (FillEvent.marketPartial maker
                    { taker with quantity := taker.quantity - maker.quantity }))
                  evs₂) ids = sumOver g m ids
              have hih : sumOver g (applyEvents (applyEvent (applyEvent m
                  (FillEvent.limitFill maker
                    { taker with quantity := taker.quantity - maker.quantity }))
                  (FillEvent.marketPartial maker
                    { taker with quantity := taker.quantity - maker.quantity }))
                  evs₂) ids
                  = sumOver g (applyEvent (applyEvent m
                    (FillEvent.limitFill maker
                      { taker with quantity := taker.quantity - maker.quantity }))
                    (FillEvent.marketPartial maker
                      { taker with quantity := taker.quantity - maker.quantity }))
                    ids := by
                have := ih ts
                  { taker with quantity := taker.quantity - maker.quantity }
                  rest (applyEvent (applyEvent m
                    (FillEvent.limitFill maker
                      { taker with quantity := taker.quantity - maker.quantity }))
                    (FillEvent.marketPartial maker
                      { taker with quantity := taker.quantity - maker.quantity }))
                  ids hnd hk hts hrest
                rw [hml] at this
                exact this
              rw [hih]
              simp only [applyEvent]
              rw [sumOver_update g _ taker.account _ ids hnd hk,
                sumOver_update g m maker.account _ ids hnd hmacct]
              rw [g_marketPartial g δ hfill, g_limitFill g δ hfill hcancel]
              have hz := hinv ts maker.quantity maker.price
              rw [hmside, hts]
              omega
            · rw [if_neg h1] at hres
              by_cases h2 : maker.quantity = taker.quantity
              · rw [if_pos h2] at hres
                simp only [Prod.mk.injEq] at hres
                obtain ⟨-, -, h3⟩ := hres
                subst h3
                show sumOver g (applyEvent (applyEvent m
                    (FillEvent.limitFill maker taker))
                    (FillEvent.marketFill maker taker)) ids = sumOver g m ids
                simp only [applyEvent]
                rw [sumOver_update g _ taker.account _ ids hnd hk,
                  sumOver_update g m maker.account _ ids hnd hmacct]
                rw [g_marketFill g δ hfill, g_limitFill g δ hfill hcancel]
                have hz := hinv ts maker.quantity maker.price
                rw [hmside, hts, ← h2]
                omega
              · rw [if_neg h2] at hres
                simp only [Prod.mk.injEq] at hres
                obtain ⟨-, -, h3⟩ := hres
                subst h3
                show sumOver g (applyEvent (applyEvent m
                    (FillEvent.limitPartial
                      { maker with quantity := maker.quantity - taker.quantity }
                      taker))
                    (FillEvent.marketFill
                      { maker with quantity := maker.quantity - taker.quantity }
                      taker)) ids = sumOver g m ids
                simp only [applyEvent]
                rw [sumOver_update g _ taker.account _ ids hnd hk,
                  sumOver_update g m maker.account _ ids hnd hmacct]
                rw [g_marketFill g δ hfill, g_limitPartial g δ hfill]
                have hA : ({ maker with quantity := maker.quantity - taker.quantity } : Order).side = ts := hmside
                have hP : ({ maker with quantity := maker.quantity - taker.quantity } : Order).price = maker.price := rfl
                rw [hA, hP, hts]
                have hz := hinv ts taker.quantity maker.price
                omega
        · rw [if_neg hpo] at hres
          simp only [Prod.mk.injEq] at hres
          obtain ⟨-, -, h3⟩ := hres
          subst h3
          rfl

theorem cancel_book_pres (Ps Pb : Order → Prop)
    (b : Book) (m : Accts) (uid : Nat)
    (hs : ∀ o ∈ b.sells, Ps o) (hb : ∀ o ∈ b.buys, Pb o) :
    (∀ o ∈ (b.cancel m uid).1.sells, Ps o) ∧
      (∀ o ∈ (b.cancel m uid).1.buys, Pb o) := by
  cases hf : b.findOrder? uid with
  | none => simp only [Book.cancel, hf]; exact ⟨hs, hb⟩
  | some o =>
    cases ho : o.side
    · simp only [Book.cancel, hf, ho]
      exact ⟨fun x hx => hs x (removeUid_subset b.sells uid x hx), hb⟩
    · simp only [Book.cancel, hf, ho]
      exact ⟨hs, fun x hx => hb x (removeUid_subset b.buys uid x hx)⟩

theorem cancel_accts_const (g : Account → Int)
    (hcancel : ∀ a u, g (Account.cancel a u) = g a)
    (b : Book) (m : Accts) (uid : Nat) (ids : List Nat) :
    sumOver g (b.cancel m uid).2 ids = sumOver g m ids := by
  cases hf : b.findOrder? uid with
  | none => simp only [Book.cancel, hf]
  | some o =>
    cases ho : o.side <;>
      (simp only [Book.cancel, hf, ho]
       exact sumOver_update_const g m o.account _ ids (fun a => hcancel a uid))

theorem reduce_book_pres (Ps Pb : Order → Prop)
    (hPs : ∀ (o : Order) (k : Nat), Ps o → Ps { o with quantity := k })
    (hPb : ∀ (o : Order) (k : Nat), Pb o → Pb { o with quantity := k })
    (b : Book) (m : Accts) (uid q : Nat) (b' : Book) (m' : Accts)
    (h : b.reduce m uid q = .ok b' m')
    (hs : ∀ o ∈ b.sells, Ps o) (hb : ∀ o ∈ b.buys, Pb o) :
    (∀ o ∈ b'.sells, Ps o) ∧ (∀ o ∈ b'.buys, Pb o) := by
  have hup : ∀ x ∈ updateFirstUid b.sells uid
      (fun y => { y with quantity := y.quantity - q }), Ps x := by
    intro x hx
    rcases updateFirstUid_mem b.sells uid _ x hx with hin | ⟨o, hoin, hxo⟩
    · exact hs x hin
    · exact hxo ▸ hPs o (o.quantity - q) (hs o hoin)
  have hupb : ∀ x ∈ updateFirstUid b.buys uid
      (fun y => { y with quantity := y.quantity - q }), Pb x := by
    intro x hx
    rcases updateFirstUid_mem b.buys uid _ x hx with hin | ⟨o, hoin, hxo⟩
    · exact hb x hin
    · exact hxo ▸ hPb o (o.quantity - q) (hb o hoin)
  cases hf : b.findOrder? uid with
  | none => simp [Book.reduce, hf] at h
  | some o =>
    cases ho : o.side
    · simp only [Book.reduce, hf, ho] at h
      split at h
      · exact absurd h (by simp)
      · split at h
        · injection h with hb1 hm1
          subst hb1
          refine ⟨?_, hb⟩
          intro x hx
          exact hup x (removeUid_subset _ uid x hx)
        · injection h with hb1 hm1
          subst hb1
          exact ⟨hup, hb⟩
    · simp only [Book.reduce, hf, ho] at h
      split at h
      · exact absurd h (by simp)
      · split at h
        · injection h with hb1 hm1
          subst hb1
          refine ⟨hs, ?_⟩
          intro x hx
          exact hupb x (removeUid_subset _ uid x hx)
        · injection h with hb1 hm1
          subst hb1
          exact ⟨hs, hupb⟩

theorem reduce_accts_const (g : Account → Int)
    (hcancel : ∀ a u, g (Account.cancel a u) = g a)
    (b : Book) (m : Accts) (uid q : Nat) (b' : Book) (m' : Accts)
    (h : b.reduce m uid q = .ok b' m') (ids : List Nat) :
    sumOver g m' ids = sumOver g m ids := by
  cases hf : b.findOrder? uid with
  | none => simp [Book.reduce, hf] at h
  | some o =>
    simp only [Book.reduce, hf] at h
    split at h
    · exact absurd h (by simp)
    · split at h <;> injection h with hb1 hm1
      · rw [← hm1]
        exact sumOver_update_const g m o.account _ ids (fun a => hcancel a uid)
      · rw [← hm1]

theorem conserve_limit_sell (g : Account → Int) (δ : Side → Nat → Nat → Int)
    (hfill : ∀ a s q p, g (Account.fill a s q p) = g a + δ s q p)
    (hcancel : ∀ a u, g (Account.cancel a u) = g a)
    (hlimit : ∀ a u, g (Account.limit a u) = g a)
    (hinv : ∀ s q p, δ s q p + δ s.invert q p = 0)
    (b : Book) (m : Accts) (acct qty price : Nat) (ids : List Nat)
    (hnd : ids.Nodup) (hacct : acct ∈ ids)
    (hbuys : ∀ o ∈ b.buys, o.side = Side.buy ∧ o.account ∈ ids) :
    sumOver g (b.limit_sell m acct qty price).2.1 ids = sumOver g m ids := by
  rcases hls : b.limit_sell m acct qty price with ⟨b', m', u, evs'⟩
  show sumOver g m' ids = sumOver g m ids
  rw [Book.limit_sell] at hls
  by_cases hc : b.crossesAsSell price
  · rw [if_pos hc] at hls
    rcases hml : marketLoop .buy ⟨b.sequence, Side.sell, qty, price, acct⟩
      b.buys with ⟨buys', rem, evs⟩
    simp only [hml] at hls
    have hcons : sumOver g (applyEvents m evs) ids = sumOver g m ids := by
      have hthis := conserve_marketLoopF g δ hfill hcancel hinv
        b.buys.length Side.buy ⟨b.sequence, Side.sell, qty, price, acct⟩
        b.buys m ids hnd hacct rfl hbuys
      rw [show marketLoopF b.buys.length Side.buy
        ⟨b.sequence, Side.sell, qty, price, acct⟩ b.buys
        = (buys', rem, evs) from hml] at hthis
      exact hthis
    by_cases hrem : rem = 0
    · rw [if_pos hrem] at hls
      simp only [Prod.mk.injEq] at hls
      obtain ⟨-, hm', -, -⟩ := hls
      rw [← hm']
      exact hcons
    · rw [if_neg hrem] at hls
      simp only [Prod.mk.injEq] at hls
      obtain ⟨-, hm', -, -⟩ := hls
      rw [← hm']
      rw [sumOver_update_const g _ acct _ ids (fun a => hlimit a b.sequence)]
      exact hcons
  · rw [if_neg hc] at hls
    simp only [Prod.mk.injEq] at hls
    obtain ⟨-, hm', -, -⟩ := hls
    rw [← hm']
    exact sumOver_update_const g m acct _ ids (fun a => hlimit a b.sequence)

theorem conserve_limit_buy (g : Account → Int) (δ : Side → Nat → Nat → Int)
    (hfill : ∀ a s q p, g (Account.fill a s q p) = g a + δ s q p)
    (hcancel : ∀ a u, g (Account.cancel a u) = g a)
    (hlimit : ∀ a u, g (Account.limit a u) = g a)
    (hinv : ∀ s q p, δ s q p + δ s.invert q p = 0)
    (b : Book) (m : Accts) (acct qty price : Nat) (ids : List Nat)
    (hnd : ids.Nodup) (hacct : acct ∈ ids)
    (hsells : ∀ o ∈ b.sells, o.side = Side.sell ∧ o.account ∈ ids) :
    sumOver g (b.limit_buy m acct qty price).2.1 ids = sumOver g m ids := by
  rcases hls : b.limit_buy m acct qty price with ⟨b', m', u, evs'⟩
  show sumOver g m' ids = sumOver g m ids
  rw [Book.limit_buy] at hls
  by_cases hc : b.crossesAsBuy price
  · rw [if_pos hc] at hls
    rcases hml : marketLoop .sell ⟨b.sequence, Side.buy, qty, price, acct⟩
      b.sells with ⟨sells', rem, evs⟩
    simp only [hml] at hls
    have hcons : sumOver g (applyEvents m evs) ids = sumOver g m ids := by
      have hthis := conserve_marketLoopF g δ hfill hcancel hinv
        b.sells.length Side.sell ⟨b.sequence, Side.buy, qty, price, acct⟩
        b.sells m ids hnd hacct rfl hsells
      rw [show marketLoopF b.sells.length Side.sell
        ⟨b.sequence, Side.buy, qty, price, acct⟩ b.sells
        = (sells', rem, evs) from hml] at hthis
      exact hthis
    by_cases hrem : rem = 0
    · rw [if_pos hrem] at hls
      simp only [Prod.mk.injEq] at hls
      obtain ⟨-, hm', -, -⟩ := hls
      rw [← hm']
      exact hcons
    · rw [if_neg hrem] at hls
      simp only [Prod.mk.injEq] at hls
      obtain ⟨-, hm', -, -⟩ := hls
      rw [← hm']
      rw [sumOver_update_const g _ acct _ ids (fun a => hlimit a b.sequence)]
      exact hcons
  · rw [if_neg hc] at hls
    simp only [Prod.mk.injEq] at hls
    obtain ⟨-, hm', -, -⟩ := hls
    rw [← hm']
    exact sumOver_update_const g m acct _ ids (fun a => hlimit a b.sequence)

theorem conserve_market (g : Account → Int) (δ : Side → Nat → Nat → Int)
    (hfill : ∀ a s q p, g (Account.fill a s q p) = g a + δ s q p)
    (hcancel : ∀ a u, g (Account.cancel a u) = g a)
    (hinv : ∀ s q p, δ s q p + δ s.invert q p = 0)
    (b : Book) (m : Accts) (acct : Nat) (side : Side) (qty : Nat)
    (ids : List Nat)
    (hnd : ids.Nodup) (hacct : acct ∈ ids)
    (hsells : ∀ o ∈ b.sells, o.side = Side.sell ∧ o.account ∈ ids)
    (hbuys : ∀ o ∈ b.buys, o.side = Side.buy ∧ o.account ∈ ids) :
    sumOver g (b.market m acct side qty).2.1 ids = sumOver g m ids := by
  cases side with
  | sell =>
    rcases hml : marketLoop .buy ⟨b.sequence, Side.sell, qty, 0, acct⟩
      b.buys with ⟨buys', rem, evs⟩
    show sumOver g (applyEvents m (marketLoop .buy
      ⟨b.sequence, Side.sell, qty, 0, acct⟩ b.buys).2.2) ids = sumOver g m ids
    exact conserve_marketLoopF g δ hfill hcancel hinv
      b.buys.length Side.buy ⟨b.sequence, Side.sell, qty, 0, acct⟩
      b.buys m ids hnd hacct rfl hbuys
  | buy =>
    rcases hml : marketLoop .sell ⟨b.sequence, Side.buy, qty, 0, acct⟩
      b.sells with ⟨sells', rem, evs⟩
    show sumOver g (applyEvents m (marketLoop .sell
      ⟨b.sequence, Side.buy, qty, 0, acct⟩ b.sells).2.2) ids = sumOver g m ids
    exact conserve_marketLoopF g δ hfill hcancel hinv
      b.sells.length Side.sell ⟨b.sequence, Side.buy, qty, 0, acct⟩
      b.sells m ids hnd hacct rfl hsells

theorem limit_sell_WF (b : Book) (m : Accts) (acct qty price : Nat)
    (ids : List Nat) (hacct : acct ∈ ids)
    (hsells : ∀ o ∈ b.sells, o.side = Side.sell ∧ o.account ∈ ids)
    (hbuys : ∀ o ∈ b.buys, o.side = Side.buy ∧ o.account ∈ ids) :
    (∀ o ∈ (b.limit_sell m acct qty price).1.sells,
      o.side = Side.sell ∧ o.account ∈ ids) ∧
    (∀ o ∈ (b.limit_sell m acct qty price).1.buys,
      o.side = Side.buy ∧ o.account ∈ ids) := by
  rcases hls : b.limit_sell m acct qty price with ⟨b', m', u, evs'⟩
  show (∀ o ∈ b'.sells, o.side = Side.sell ∧ o.account ∈ ids) ∧
    (∀ o ∈ b'.buys, o.side = Side.buy ∧ o.account ∈ ids)
  rw [Book.limit_sell] at hls
  by_cases hc : b.crossesAsSell price
  · rw [if_pos hc] at hls
    rcases hml : marketLoop .buy ⟨b.sequence, Side.sell, qty, price, acct⟩
      b.buys with ⟨buys', rem, evs⟩
    simp only [hml] at hls
    have hpres : ∀ o ∈ buys', o.side = Side.buy ∧ o.account ∈ ids := by
      have hthis := marketLoopF_tree_pres
        (fun o => o.side = Side.buy ∧ o.account ∈ ids)
        (fun o k hP => hP) b.buys.length Side.buy
        ⟨b.sequence, Side.sell, qty, price, acct⟩ b.buys hbuys
      rw [show marketLoopF b.buys.length Side.buy
        ⟨b.sequence, Side.sell, qty, price, acct⟩ b.buys
        = (buys', rem, evs) from hml] at hthis
      exact hthis
    by_cases hrem : rem = 0
    · rw [if_pos hrem] at hls
      simp only [Prod.mk.injEq] at hls
      obtain ⟨hb', -, -, -⟩ := hls
      rw [← hb']
      exact ⟨hsells, hpres⟩
    · rw [if_neg hrem] at hls
      simp only [Prod.mk.injEq] at hls
      obtain ⟨hb', -, -, -⟩ := hls
      rw [← hb']
      refine ⟨?_, hpres⟩
      intro o hom
      rcases List.mem_append.mp hom with hin | hnew
      · exact hsells o hin
      · rw [List.mem_singleton.mp hnew]
        exact ⟨rfl, hacct⟩
  · rw [if_neg hc] at hls
    simp only [Prod.mk.injEq] at hls
    obtain ⟨hb', -, -, -⟩ := hls
    rw [← hb']
    refine ⟨?_, hbuys⟩
    intro o hom
    rcases List.mem_append.mp hom with hin | hnew
    · exact hsells o hin
    · rw [List.mem_singleton.mp hnew]
      exact ⟨rfl, hacct⟩

theorem limit_buy_WF (b : Book) (m : Accts) (acct qty price : Nat)
    (ids : List Nat) (hacct : acct ∈ ids)
    (hsells : ∀ o ∈ b.sells, o.side = Side.sell ∧ o.account ∈ ids)
    (hbuys : ∀ o ∈ b.buys, o.side = Side.buy ∧ o.account ∈ ids) :
    (∀ o ∈ (b.limit_buy m acct qty price).1.sells,
      o.side = Side.sell ∧ o.account ∈ ids) ∧
    (∀ o ∈ (b.limit_buy m acct qty price).1.buys,
      o.side = Side.buy ∧ o.account ∈ ids) := by
  rcases hls : b.limit_buy m acct qty price with ⟨b', m', u, evs'⟩
  show (∀ o ∈ b'.sells, o.side = Side.sell ∧ o.account ∈ ids) ∧
    (∀ o ∈ b'.buys, o.side = Side.buy ∧ o.account ∈ ids)
  rw [Book.limit_buy] at hls
  by_cases hc : b.crossesAsBuy price
  · rw [if_pos hc] at hls
    rcases hml : marketLoop .sell ⟨b.sequence, Side.buy, qty, price, acct⟩
      b.sells with ⟨sells', rem, evs⟩
    simp only [hml] at hls
    have hpres : ∀ o ∈ sells', o.side = Side.sell ∧ o.account ∈ ids := by
      have hthis := marketLoopF_tree_pres
        (fun o => o.side = Side.sell ∧ o.account ∈ ids)
        (fun o k hP => hP) b.sells.length Side.sell
        ⟨b.sequence, Side.buy, qty, price, acct⟩ b.sells hsells
      rw [show marketLoopF b.sells.length Side.sell
        ⟨b.sequence, Side.buy, qty, price, acct⟩ b.sells
        = (sells', rem, evs) from hml] at hthis
      exact hthis
    by_cases hrem : rem = 0
    · rw [if_pos hrem] at hls
      simp only [Prod.mk.injEq] at hls
      obtain ⟨hb', -, -, -⟩ := hls
      rw [← hb']
      exact ⟨hpres, hbuys⟩
    · rw [if_neg hrem] at hls
      simp only [Prod.mk.injEq] at hls
      obtain ⟨hb', -, -, -⟩ := hls
      rw [← hb']
      refine ⟨hpres, ?_⟩
      intro o hom
      rcases List.mem_append.mp hom with hin | hnew
      · exact hbuys o hin
      · rw [List.mem_singleton.mp hnew]
        exact ⟨rfl, hacct⟩
  · rw [if_neg hc] at hls
    simp only [Prod.mk.injEq] at hls
    obtain ⟨hb', -, -, -⟩ := hls
    rw [← hb']
    refine ⟨hsells, ?_⟩
    intro o hom
    rcases List.mem_append.mp hom with hin | hnew
    · exact hbuys o hin
    · rw [List.mem_singleton.mp hnew]
      exact ⟨rfl, hacct⟩

theorem market_WF (b : Book) (m : Accts) (acct : Nat) (side : Side)
    (qty : Nat) (ids : List Nat)
    (hsells : ∀ o ∈ b.sells, o.side = Side.sell ∧ o.account ∈ ids)
    (hbuys : ∀ o ∈ b.buys, o.side = Side.buy ∧ o.account ∈ ids) :
    (∀ o ∈ (b.market m acct side qty).1.sells,
      o.side = Side.sell ∧ o.account ∈ ids) ∧
    (∀ o ∈ (b.market m acct side qty).1.buys,
      o.side = Side.buy ∧ o.account ∈ ids) := by
  cases side with
  | sell =>
    refine ⟨hsells, ?_⟩
    show ∀ o ∈ (marketLoop .buy ⟨b.sequence, Side.sell, qty, 0, acct⟩
      b.buys).1, o.side = Side.buy ∧ o.account ∈ ids
    exact marketLoopF_tree_pres
      (fun o => o.side = Side.buy ∧ o.account ∈ ids)
      (fun o k hP => hP) b.buys.length Side.buy
      ⟨b.sequence, Side.sell, qty, 0, acct⟩ b.buys hbuys
  | buy =>
    refine ⟨?_, hbuys⟩
    show ∀ o ∈ (marketLoop .sell ⟨b.sequence, Side.buy, qty, 0, acct⟩
      b.sells).1, o.side = Side.sell ∧ o.account ∈ ids
    exact marketLoopF_tree_pres
      (fun o => o.side = Side.sell ∧ o.account ∈ ids)
      (fun o k hP => hP) b.sells.length Side.sell
      ⟨b.sequence, Side.buy, qty, 0, acct⟩ b.sells hsells

theorem stepOp_WF (op : Op) (b : Book) (m : Accts) (ids : List Nat)
    (hsells : ∀ o ∈ b.sells, o.side = Side.sell ∧ o.account ∈ ids)
    (hbuys : ∀ o ∈ b.buys, o.side = Side.buy ∧ o.account ∈ ids)
    (hop : ∀ a, op.acct = some a → a ∈ ids) :
    (∀ o ∈ (stepOp (b, m) op).1.1.sells,
      o.side = Side.sell ∧ o.account ∈ ids) ∧
    (∀ o ∈ (stepOp (b, m) op).1.1.buys,
      o.side = Side.buy ∧ o.account ∈ ids) := by
  cases op with
  | limitOp a s q p =>
    have hacct : a ∈ ids := hop a rfl
    cases s with
    | sell => exact limit_sell_WF b m a q p ids hacct hsells hbuys
    | buy => exact limit_buy_WF b m a q p ids hacct hsells hbuys
  | marketOp a s q => exact market_WF b m a s q ids hsells hbuys
  | cancelOp uid =>
    exact cancel_book_pres (fun o => o.side = Side.sell ∧ o.account ∈ ids)
      (fun o => o.side = Side.buy ∧ o.account ∈ ids) b m uid hsells hbuys
  | reduceOp uid q =>
    show (∀ o ∈ (match b.reduce m uid q with
        | .ok b' m' => ((b', m'), (none : Option Nat))
        | .insufficient => ((b, m), none)
        | .notFound => ((b, m), none)).1.1.sells,
      o.side = Side.sell ∧ o.account ∈ ids) ∧
      (∀ o ∈ (match b.reduce m uid q with
        | .ok b' m' => ((b', m'), (none : Option Nat))
        | .insufficient => ((b, m), none)
        | .notFound => ((b, m), none)).1.1.buys,
      o.side = Side.buy ∧ o.account ∈ ids)
    cases hred : b.reduce m uid q with
    | ok b' m' =>
      simp only [hred]
      exact reduce_book_pres (fun o => o.side = Side.sell ∧ o.account ∈ ids)
        (fun o => o.side = Side.buy ∧ o.account ∈ ids)
        (fun o k hP => hP) (fun o k hP => hP) b m uid q b' m' hred hsells hbuys
    | insufficient => simp only [hred]; exact ⟨hsells, hbuys⟩
    | notFound => simp only [hred]; exact ⟨hsells, hbuys⟩

theorem conserve_stepOp (g : Account → Int) (δ : Side → Nat → Nat → Int)
    (hfill : ∀ a s q p, g (Account.fill a s q p) = g a + δ s q p)
    (hcancel : ∀ a u, g (Account.cancel a u) = g a)
    (hlimit : ∀ a u, g (Account.limit a u) = g a)
    (hinv : ∀ s q p, δ s q p + δ s.invert q p = 0)
    (op : Op) (b : Book) (m : Accts) (ids : List Nat)
    (hnd : ids.Nodup)
    (hsells : ∀ o ∈ b.sells, o.side = Side.sell ∧ o.account ∈ ids)
    (hbuys : ∀ o ∈ b.buys, o.side = Side.buy ∧ o.account ∈ ids)
    (hop : ∀ a, op.acct = some a → a ∈ ids) :
    sumOver g (stepOp (b, m) op).1.2 ids = sumOver g m ids := by
  cases op with
  | limitOp a s q p =>
    have hacct : a ∈ ids := hop a rfl
    cases s with
    | sell =>
      exact conserve_limit_sell g δ hfill hcancel hlimit hinv b m a q p ids
        hnd hacct hbuys
    | buy =>
      exact conserve_limit_buy g δ hfill hcancel hlimit hinv b m a q p ids
        hnd hacct hsells
  | marketOp a s q =>
    have hacct : a ∈ ids := hop a rfl
    exact conserve_market g δ hfill hcancel hinv b m a s q ids
      hnd hacct hsells hbuys
  | cancelOp uid => exact cancel_accts_const g hcancel b m uid ids
  | reduceOp uid q =>
    show sumOver g (match b.reduce m uid q with
        | .ok b' m' => ((b', m'), (none : Option Nat))
        | .insufficient => ((b, m), none)
        | .notFound => ((b, m), none)).1.2 ids = sumOver g m ids
    cases hred : b.reduce m uid q with
    | ok b' m' =>
      simp only [hred]
      exact reduce_accts_const g hcancel b m uid q b' m' hred ids
    | insufficient => simp only [hred]
    | notFound => simp only [hred]

theorem conserve_runOps (g : Account → Int) (δ : Side → Nat → Nat → Int)
    (hfill : ∀ a s q p, g (Account.fill a s q p) = g a + δ s q p)
    (hcancel : ∀ a u, g (Account.cancel a u) = g a)
    (hlimit : ∀ a u, g (Account.limit a u) = g a)
    (hinv : ∀ s q p, δ s q p + δ s.invert q p = 0) :
    ∀ (ops : List Op) (b : Book) (m : Accts) (ids : List Nat),
      ids.Nodup →
      (∀ o ∈ b.sells, o.side = Side.sell ∧ o.account ∈ ids) →
      (∀ o ∈ b.buys, o.side = Side.buy ∧ o.account ∈ ids) →
      (∀ op ∈ ops, ∀ a, op.acct = some a → a ∈ ids) →
      sumOver g (runOps (b, m) ops).1.2 ids = sumOver g m ids := by
  intro ops
  induction ops with
  | nil => intro b m ids hnd hsells hbuys hops; rfl
  | cons op tl ih =>
    intro b m ids hnd hsells hbuys hops
    have hop1 : ∀ a, op.acct = some a → a ∈ ids :=
      hops op (List.mem_cons_self op tl)
    have hoptl : ∀ o ∈ tl, ∀ a, Op.acct o = some a → a ∈ ids :=
      fun o hmem => hops o (List.mem_cons_of_mem op hmem)
    have hwf := stepOp_WF op b m ids hsells hbuys hop1
    have hstep := conserve_stepOp g δ hfill hcancel hlimit hinv op b m ids
      hnd hsells hbuys hop1
    rcases hst : stepOp (b, m) op with ⟨⟨b1, m1⟩, u⟩
    rw [hst] at hwf hstep
    have hkey : (runOps (b, m) (op :: tl)).1.2 = (runOps (b1, m1) tl).1.2 := by
      have h1 : (runOps (b, m) (op :: tl)).1
          = (runOps ((stepOp (b, m) op).1) tl).1 := rfl
      rw [h1, hst]
    rw [hkey, ih b1 m1 ids hnd hwf.1 hwf.2 hoptl]
    exact hstep

/-- C1: over any sequence of market and limit operations (cancel and
reduce included, which never touch balances), the sum over all
accounts of shares and the sum over all accounts of capital are
unchanged by each operation: every fill adjusts exactly the maker and
the taker account with the same quantity and price and opposite signs,
so matched shares and matched dollars are conserved.  `ids` enumerates
the accounts (every resting order's account, and every operation's
account, lies in it). -/
theorem book_conservation (ops : List Op) (b : Book) (m : Accts)
    (ids : List Nat)
    (hnd : ids.Nodup)
    (hsells : ∀ o ∈ b.sells, o.side = Side.sell ∧ o.account ∈ ids)
    (hbuys : ∀ o ∈ b.buys, o.side = Side.buy ∧ o.account ∈ ids)
    (hops : ∀ op ∈ ops, ∀ a, op.acct = some a → a ∈ ids) :
    sumOver (fun a => a.shares) (runOps (b, m) ops).1.2 ids
      = sumOver (fun a => a.shares) m ids ∧
    sumOver (fun a => a.capital) (runOps (b, m) ops).1.2 ids
      = sumOver (fun a => a.capital) m ids := by
  constructor
  · exact conserve_runOps (fun a => a.shares)
      (fun s q _ => fillSharesDelta s q)
      (fun a s q p => shares_fill a s q p)
      (fun a u => shares_cancel a u)
      (fun a u => shares_limit a u)
      (fun s q p => fillSharesDelta_invert s q)
      ops b m ids hnd hsells hbuys hops
  · exact conserve_runOps (fun a => a.capital) fillCapitalDelta
      (fun a s q p => capital_fill a s q p)
      (fun a u => capital_cancel a u)
      (fun a u => capital_limit a u)
      fillCapitalDelta_invert
      ops b m ids hnd hsells hbuys hops

/-- Witness for `book_conservation`: the run of spec scenario 2 (a
resting buy partially filled by a crossing sell) followed by a market
sell, over the accounts 0, 1, 2. -/
theorem book_conservation_witness :
    sumOver (fun a => a.shares)
      (runOps ({}, emptyAccts)
        [Op.limitOp 0 Side.buy 100 100, Op.limitOp 1 Side.sell 60 100,
         Op.marketOp 2 Side.sell 10]).1.2 [0, 1, 2]
      = sumOver (fun a => a.shares) emptyAccts [0, 1, 2] ∧
    sumOver (fun a => a.capital)
      (runOps ({}, emptyAccts)
        [Op.limitOp 0 Side.buy 100 100, Op.limitOp 1 Side.sell 60 100,
         Op.marketOp 2 Side.sell 10]).1.2 [0, 1, 2]
      = sumOver (fun a => a.capital) emptyAccts [0, 1, 2] :=
  book_conservation
    [Op.limitOp 0 Side.buy 100 100, Op.limitOp 1 Side.sell 60 100,
     Op.marketOp 2 Side.sell 10] {} emptyAccts [0, 1, 2]
    (by decide) (by intro o ho; simp at ho) (by intro o ho; simp at ho)
    (by
      intro op hop a ha
      rcases List.mem_cons.mp hop with h | h
      · subst h; simp only [Op.acct, Option.some.injEq] at ha
        subst ha; decide
      · rcases List.mem_cons.mp h with h2 | h2
        · subst h2; simp only [Op.acct, Option.some.injEq] at ha
          subst ha; decide
        · rcases List.mem_cons.mp h2 with h3 | h3
          · subst h3; simp only [Op.acct, Option.some.injEq] at ha
            subst ha; decide
          · simp at h3)

theorem applyEvent_acct_delta (m : Accts) (e : FillEvent) :
    (applyEvent m e e.acct).shares
      = (m e.acct).shares + fillSharesDelta e.filledSide e.qty ∧
    (applyEvent m e e.acct).capital
      = (m e.acct).capital + fillCapitalDelta e.filledSide e.qty e.lim.price := by
  cases e <;>
    refine ⟨?_, ?_⟩ <;>
    simp [applyEvent, updateAcct, FillEvent.acct, FillEvent.filledSide,
      FillEvent.qty, FillEvent.lim, Account.limitFill, Account.limitPartial,
      Account.marketFill, Account.marketPartial, shares_fill, capital_fill,
      shares_cancel, capital_cancel]

theorem applyEvent_other (m : Accts) (e : FillEvent) (j : Nat)
    (hj : j ≠ e.acct) : applyEvent m e j = m j := by
  cases e <;> simp only [FillEvent.acct] at hj <;>
    simp [applyEvent, updateAcct, hj]

/-- C3: every fill event fired by the matching loop carries as its
resting-order snapshot an order of the pre-match tree (same uid, side,
price and account), and the account bookkeeping it triggers adjusts
exactly one account, whose shares move by the filled quantity on the
filled side and whose capital moves by that quantity times the resting
(maker) order's price — never the taker's submitted price. -/
theorem maker_price_priority (ts : Side) (taker : Order)
    (tree : List Order) (e : FillEvent)
    (he : e ∈ (marketLoop ts taker tree).2.2) (m : Accts) :
    (∃ o ∈ tree, e.lim.uid = o.uid ∧ e.lim.side = o.side ∧
      e.lim.price = o.price ∧ e.lim.account = o.account) ∧
    (applyEvent m e e.acct).shares
      = (m e.acct).shares + fillSharesDelta e.filledSide e.qty ∧
    (applyEvent m e e.acct).capital
      = (m e.acct).capital + fillCapitalDelta e.filledSide e.qty e.lim.price ∧
    (∀ j, j ≠ e.acct → applyEvent m e j = m j) :=
  ⟨marketLoopF_trace_lim tree.length ts taker tree e he,
   (applyEvent_acct_delta m e).1, (applyEvent_acct_delta m e).2,
   fun j hj => applyEvent_other m e j hj⟩

/-- Witness for `maker_price_priority`: a sell taker at price 90 hits a
resting buy at price 100; both emitted events carry the maker price
100, and the maker-side event adjusts account 0 at price 100. -/
theorem maker_price_priority_witness :
    (FillEvent.limitPartial ⟨1, Side.buy, 6, 100, 0⟩ ⟨2, Side.sell, 4, 90, 1⟩
      ∈ (marketLoop Side.buy ⟨2, Side.sell, 4, 90, 1⟩
          [⟨1, Side.buy, 10, 100, 0⟩]).2.2) ∧
    ((∃ o ∈ [(⟨1, Side.buy, 10, 100, 0⟩ : Order)],
      (FillEvent.limitPartial ⟨1, Side.buy, 6, 100, 0⟩
        ⟨2, Side.sell, 4, 90, 1⟩).lim.uid = o.uid ∧
      (FillEvent.limitPartial ⟨1, Side.buy, 6, 100, 0⟩
        ⟨2, Side.sell, 4, 90, 1⟩).lim.side = o.side ∧
      (FillEvent.limitPartial ⟨1, Side.buy, 6, 100, 0⟩
        ⟨2, Side.sell, 4, 90, 1⟩).lim.price = o.price ∧
      (FillEvent.limitPartial ⟨1, Side.buy, 6, 100, 0⟩
        ⟨2, Side.sell, 4, 90, 1⟩).lim.account = o.account) ∧
    (applyEvent emptyAccts
      (FillEvent.limitPartial ⟨1, Side.buy, 6, 100, 0⟩
        ⟨2, Side.sell, 4, 90, 1⟩)
      (FillEvent.limitPartial ⟨1, Side.buy, 6, 100, 0⟩
        ⟨2, Side.sell, 4, 90, 1⟩).acct).shares
      = (emptyAccts (FillEvent.limitPartial ⟨1, Side.buy, 6, 100, 0⟩
          ⟨2, Side.sell, 4, 90, 1⟩).acct).shares
        + fillSharesDelta
            (FillEvent.limitPartial ⟨1, Side.buy, 6, 100, 0⟩
              ⟨2, Side.sell, 4, 90, 1⟩).filledSide
            (FillEvent.limitPartial ⟨1, Side.buy, 6, 100, 0⟩
              ⟨2, Side.sell, 4, 90, 1⟩).qty ∧
    (applyEvent emptyAccts
      (FillEvent.limitPartial ⟨1, Side.buy, 6, 100, 0⟩
        ⟨2, Side.sell, 4, 90, 1⟩)
      (FillEvent.limitPartial ⟨1, Side.buy, 6, 100, 0⟩
        ⟨2, Side.sell, 4, 90, 1⟩).acct).capital
      = (emptyAccts (FillEvent.limitPartial ⟨1, Side.buy, 6, 100, 0⟩
          ⟨2, Side.sell, 4, 90, 1⟩).acct).capital
        + fillCapitalDelta
            (FillEvent.limitPartial ⟨1, Side.buy, 6, 100, 0⟩
              ⟨2, Side.sell, 4, 90, 1⟩).filledSide
            (FillEvent.limitPartial ⟨1, Side.buy, 6, 100, 0⟩
              ⟨2, Side.sell, 4, 90, 1⟩).qty
            (FillEvent.limitPartial ⟨1, Side.buy, 6, 100, 0⟩
              ⟨2, Side.sell, 4, 90, 1⟩).lim.price ∧
    (∀ j, j ≠ (FillEvent.limitPartial ⟨1, Side.buy, 6, 100, 0⟩
        ⟨2, Side.sell, 4, 90, 1⟩).acct →
      applyEvent emptyAccts
        (FillEvent.limitPartial ⟨1, Side.buy, 6, 100, 0⟩
          ⟨2, Side.sell, 4, 90, 1⟩) j = emptyAccts j)) :=
  ⟨by decide,
   maker_price_priority Side.buy ⟨2, Side.sell, 4, 90, 1⟩
     [⟨1, Side.buy, 10, 100, 0⟩]
     (FillEvent.limitPartial ⟨1, Side.buy, 6, 100, 0⟩ ⟨2, Side.sell, 4, 90, 1⟩)
     (by decide) emptyAccts⟩

/-- Counterexample to C4 as stated: a resting buy (uid 1, 10@100) is hit
by a crossing limit sell for 15@100.  The taker rests its remainder and
is assigned uid 2 — a uid present in the book's map — yet the
taker-side TradeResponse carries order_id 0, not 2: system_account.hpp
passes the literal 0 (`market->uid` is commented out) for both
taker-side callbacks, whether or not the taker was a market order. -/
theorem trade_response_order_id_counterexample :
    ((Book.mk [] [⟨1, Side.buy, 10, 100, 0⟩] 2).limit_sell
      emptyAccts 1 15 100).2.2.1 = 2 ∧
    ((Book.mk [] [⟨1, Side.buy, 10, 100, 0⟩] 2).limit_sell
      emptyAccts 1 15 100).1.has 2 = true ∧
    (((Book.mk [] [⟨1, Side.buy, 10, 100, 0⟩] 2).limit_sell
      emptyAccts 1 15 100).2.2.2.map tradeResponseOf)
      = [⟨1, 100, 10, 0, Side.buy⟩, ⟨0, 100, 10, 5, Side.sell⟩] ∧
    (0 : Nat) ≠ 2 := by
  decide

/-- C4 (amended): in every TradeResponse, order_id is the maker order's
uid for maker-side fills (the uid of an order resting in the pre-match
tree); for BOTH taker-side fills it is 0 — whether the taker was a
market order or a crossing limit order — since the source hard-codes 0
in `SystemAccount::market_fill` and `market_partial`. -/
theorem trade_response_order_id (ts : Side) (taker : Order)
    (tree : List Order) (e : FillEvent)
    (he : e ∈ (marketLoop ts taker tree).2.2) :
    (e.isMakerEvent = true →
      (tradeResponseOf e).order_id = e.lim.uid ∧
      ∃ o ∈ tree, e.lim.uid = o.uid) ∧
    (e.isMakerEvent = false → (tradeResponseOf e).order_id = 0) := by
  have htrace := marketLoopF_trace_lim tree.length ts taker tree e he
  cases e with
  | limitFill l mk =>
    refine ⟨fun _ => ⟨rfl, ?_⟩, fun h => by simp [FillEvent.isMakerEvent] at h⟩
    obtain ⟨o, ho, h1, -, -, -⟩ := htrace
    exact ⟨o, ho, h1⟩
  | limitPartial l mk =>
    refine ⟨fun _ => ⟨rfl, ?_⟩, fun h => by simp [FillEvent.isMakerEvent] at h⟩
    obtain ⟨o, ho, h1, -, -, -⟩ := htrace
    exact ⟨o, ho, h1⟩
  | marketFill l mk =>
    exact ⟨fun h => by simp [FillEvent.isMakerEvent] at h, fun _ => rfl⟩
  | marketPartial l mk =>
    exact ⟨fun h => by simp [FillEvent.isMakerEvent] at h, fun _ => rfl⟩

/-- Witness for `trade_response_order_id`: the maker-side event of the
counterexample scenario — order_id is the maker's uid 1. -/
theorem trade_response_order_id_witness :
    (FillEvent.limitFill ⟨1, Side.buy, 10, 100, 0⟩ ⟨2, Side.sell, 5, 100, 1⟩
      ∈ (marketLoop Side.buy ⟨2, Side.sell, 15, 100, 1⟩
          [⟨1, Side.buy, 10, 100, 0⟩]).2.2) ∧
    (((FillEvent.limitFill ⟨1, Side.buy, 10, 100, 0⟩
        ⟨2, Side.sell, 5, 100, 1⟩).isMakerEvent = true →
      (tradeResponseOf (FillEvent.limitFill ⟨1, Side.buy, 10, 100, 0⟩
        ⟨2, Side.sell, 5, 100, 1⟩)).order_id
        = (FillEvent.limitFill ⟨1, Side.buy, 10, 100, 0⟩
            ⟨2, Side.sell, 5, 100, 1⟩).lim.uid ∧
      ∃ o ∈ [(⟨1, Side.buy, 10, 100, 0⟩ : Order)],
        (FillEvent.limitFill ⟨1, Side.buy, 10, 100, 0⟩
          ⟨2, Side.sell, 5, 100, 1⟩).lim.uid = o.uid) ∧
    ((FillEvent.limitFill ⟨1, Side.buy, 10, 100, 0⟩
        ⟨2, Side.sell, 5, 100, 1⟩).isMakerEvent = false →
      (tradeResponseOf (FillEvent.limitFill ⟨1, Side.buy, 10, 100, 0⟩
        ⟨2, Side.sell, 5, 100, 1⟩)).order_id = 0)) :=
  ⟨by decide,
   trade_response_order_id Side.buy ⟨2, Side.sell, 15, 100, 1⟩
     [⟨1, Side.buy, 10, 100, 0⟩]
     (FillEvent.limitFill ⟨1, Side.buy, 10, 100, 0⟩ ⟨2, Side.sell, 5, 100, 1⟩)
     (by decide)⟩

-- ---------------------------------------------------------------------------
-- C8: limit then cancel round trip
-- ---------------------------------------------------------------------------

theorem find?_append_last (u : Nat) :
    ∀ (xs : List Order) (y : Order),
      (∀ x ∈ xs, x.uid ≠ u) → y.uid = u →
      (xs ++ [y]).find? (fun x => x.uid == u) = some y := by
  intro xs
  induction xs with
  | nil =>
    intro y _ hy
    simp only [List.nil_append]
    exact @List.find?_cons_of_pos Order (fun x => x.uid == u) y []
      (by simpa using hy)
  | cons hd tl ih =>
    intro y hxs hy
    have hhd : ¬ ((fun (x : Order) => x.uid == u) hd = true) := by
      simpa using hxs hd (List.mem_cons_self hd tl)
    rw [List.cons_append,
      @List.find?_cons_of_neg Order (fun x => x.uid == u) hd (tl ++ [y]) hhd]
    exact ih y (fun x hx => hxs x (List.mem_cons_of_mem hd hx)) hy

theorem removeUid_append_last (u : Nat) :
    ∀ (xs : List Order) (y : Order),
      (∀ x ∈ xs, x.uid ≠ u) → y.uid = u →
      removeUid (xs ++ [y]) u = xs := by
  intro xs
  induction xs with
  | nil =>
    intro y _ hy
    simp [removeUid, hy]
  | cons hd tl ih =>
    intro y hxs hy
    have hhd : hd.uid ≠ u := hxs hd (List.mem_cons_self hd tl)
    rw [List.cons_append, removeUid, if_neg hhd,
      ih y (fun x hx => hxs x (List.mem_cons_of_mem hd hx)) hy]

theorem erase_append_singleton (u : Nat) :
    ∀ (l : List Nat), u ∉ l → (l ++ [u]).erase u = l := by
  intro l
  induction l with
  | nil => intro; simp
  | cons x xs ih =>
    intro h
    have hx : x ≠ u := fun he => h (he ▸ List.mem_cons_self x xs)
    rw [List.cons_append, List.erase_cons_tail (by simpa using hx),
      ih (fun hm => h (List.mem_cons_of_mem x hm))]

theorem account_limit_cancel (a : Account) (u : Nat) (h : u ∉ a.orders) :
    (a.limit u).cancel u = a := by
  cases a with
  | mk sh cap ords un =>
    simp only [Account.limit, Account.cancel]
    simp only [Account.orders] at h
    rw [erase_append_singleton u ords h]

/-- C8: submitting a limit order that does not cross the opposite side
and then canceling the returned uid with no intervening activity
returns the book to its pre-submit state: no fills are generated, both
side lists (hence the uid map, all counts, volumes and best prices,
which are derived from them) are exactly as before, every account
(shares, capital and order set) is exactly as before, and the canceled
uid is absent from the submitting account's order set; only the uid
counter has moved on by one. -/
theorem limit_cancel_roundtrip (b : Book) (m : Accts) (acct : Nat)
    (side : Side) (qty price : Nat)
    (hfresh : ∀ o ∈ b.sells ++ b.buys, o.uid ≠ b.sequence)
    (hafresh : b.sequence ∉ (m acct).orders)
    (hnc : (match side with
      | Side.sell => b.crossesAsSell price
      | Side.buy => b.crossesAsBuy price) = false) :
    (b.limit m acct side qty price).2.2.1 = b.sequence ∧
    (b.limit m acct side qty price).2.2.2 = [] ∧
    ((b.limit m acct side qty price).1.cancel
        (b.limit m acct side qty price).2.1
        (b.limit m acct side qty price).2.2.1).1.sells = b.sells ∧
    ((b.limit m acct side qty price).1.cancel
        (b.limit m acct side qty price).2.1
        (b.limit m acct side qty price).2.2.1).1.buys = b.buys ∧
    ((b.limit m acct side qty price).1.cancel
        (b.limit m acct side qty price).2.1
        (b.limit m acct side qty price).2.2.1).1.sequence
      = b.sequence + 1 ∧
    (∀ i, ((b.limit m acct side qty price).1.cancel
        (b.limit m acct side qty price).2.1
        (b.limit m acct side qty price).2.2.1).2 i = m i) ∧
    b.sequence ∉ (((b.limit m acct side qty price).1.cancel
        (b.limit m acct side qty price).2.1
        (b.limit m acct side qty price).2.2.1).2 acct).orders := by
  cases side with
  | sell =>
    have hs : ∀ x ∈ b.sells, x.uid ≠ b.sequence :=
      fun x hx => hfresh x (List.mem_append_left b.buys hx)
    have hlim : b.limit m acct Side.sell qty price
        = (Book.mk (b.sells ++ [⟨b.sequence, Side.sell, qty, price, acct⟩])
             b.buys (b.sequence + 1),
           updateAcct m acct (fun a => a.limit b.sequence), b.sequence, []) := by
      have hnc' : b.crossesAsSell price = false := by simpa using hnc
      simp only [Book.limit, Book.limit_sell]
      rw [if_neg (by simp [hnc'])]
    rw [hlim]
    have hfound : Book.findOrder?
        (Book.mk (b.sells ++ [⟨b.sequence, Side.sell, qty, price, acct⟩])
          b.buys (b.sequence + 1)) b.sequence
        = some ⟨b.sequence, Side.sell, qty, price, acct⟩ := by
      simp only [Book.findOrder?]
      rw [find?_append_last b.sequence b.sells _ hs rfl]
    refine ⟨rfl, rfl, ?_, ?_, ?_, ?_, ?_⟩
    · simp only [Book.cancel, hfound]
      exact removeUid_append_last b.sequence b.sells _ hs rfl
    · simp only [Book.cancel, hfound]
    · simp only [Book.cancel, hfound]
    · intro i
      simp only [Book.cancel, hfound, updateAcct]
      by_cases hi : i = acct
      · subst hi
        simp only [if_pos rfl]
        exact account_limit_cancel (m i) b.sequence hafresh
      · simp [hi]
    · have h5 := account_limit_cancel (m acct) b.sequence hafresh
      simp only [Book.cancel, hfound]
      simp [updateAcct, h5, hafresh]
  | buy =>
    have hb : ∀ x ∈ b.buys, x.uid ≠ b.sequence :=
      fun x hx => hfresh x (List.mem_append_right b.sells hx)
    have hlim : b.limit m acct Side.buy qty price
        = (Book.mk b.sells
             (b.buys ++ [⟨b.sequence, Side.buy, qty, price, acct⟩])
             (b.sequence + 1),
           updateAcct m acct (fun a => a.limit b.sequence), b.sequence, []) := by
      have hnc' : b.crossesAsBuy price = false := by simpa using hnc
      simp only [Book.limit, Book.limit_buy]
      rw [if_neg (by simp [hnc'])]
    rw [hlim]
    have hnos : Book.findOrder?
        (Book.mk b.sells
          (b.buys ++ [⟨b.sequence, Side.buy, qty, price, acct⟩])
          (b.sequence + 1)) b.sequence
        = some ⟨b.sequence, Side.buy, qty, price, acct⟩ := by
      simp only [Book.findOrder?]
      rw [List.find?_eq_none.mpr (by
        intro x hx
        simpa using hfresh x (List.mem_append_left b.buys hx))]
      rw [find?_append_last b.sequence b.buys _ hb rfl]
    refine ⟨rfl, rfl, ?_, ?_, ?_, ?_, ?_⟩
    · simp only [Book.cancel, hnos]
    · simp only [Book.cancel, hnos]
      exact removeUid_append_last b.sequence b.buys _ hb rfl
    · simp only [Book.cancel, hnos]
    · intro i
      simp only [Book.cancel, hnos, updateAcct]
      by_cases hi : i = acct
      · subst hi
        simp only [if_pos rfl]
        exact account_limit_cancel (m i) b.sequence hafresh
      · simp [hi]
    · have h5 := account_limit_cancel (m acct) b.sequence hafresh
      simp only [Book.cancel, hnos]
      simp [updateAcct, h5, hafresh]

/-- Witness for `limit_cancel_roundtrip`: a non-crossing buy at 100 on
the book holding one resting sell at 200, submitted and canceled. -/
theorem limit_cancel_roundtrip_witness :
    ((Book.limit_sell {} emptyAccts 0 5 200).1.limit
      (Book.limit_sell {} emptyAccts 0 5 200).2.1 1 Side.buy 7 100).2.2.1
      = (Book.limit_sell {} emptyAccts 0 5 200).1.sequence := by
  have h := limit_cancel_roundtrip (Book.limit_sell {} emptyAccts 0 5 200).1
    (Book.limit_sell {} emptyAccts 0 5 200).2.1 1 Side.buy 7 100
    (by decide) (by decide) (by decide)
  exact h.1

/-- C7: for an authenticated ReplaceRequest: (i) when the target order
exists but its account's username differs from the session account's,
the response is Rejected and neither the cancel nor the new limit is
performed, the book and accounts coming back unchanged; (ii) when the
target no longer exists, the response is Accepted with canceled = 0
and the new limit is still placed; (iii) when the target exists and is
owned by the session's account, it is canceled (canceled = its uid =
the request's order id) and the new limit is placed on the resulting
state, its uid returned as new_order_id. -/
theorem replace_semantics (b : Book) (m : Accts) (acct order_id : Nat)
    (side : Side) (qty price : Nat) :
    (∀ o, b.findOrder? order_id = some o →
      (m o.account).username ≠ (m acct).username →
      handleReplace b m (some acct) order_id side qty price
        = (b, m, ⟨order_id, 0, .rejected⟩)) ∧
    (b.findOrder? order_id = none →
      handleReplace b m (some acct) order_id side qty price
        = ((b.limit m acct side qty price).1,
           (b.limit m acct side qty price).2.1,
           ⟨0, (b.limit m acct side qty price).2.2.1, .accepted⟩)) ∧
    (∀ o, b.findOrder? order_id = some o →
      (m o.account).username = (m acct).username →
      o.uid = order_id ∧
      handleReplace b m (some acct) order_id side qty price
        = (((b.cancel m order_id).1.limit (b.cancel m order_id).2
              acct side qty price).1,
           ((b.cancel m order_id).1.limit (b.cancel m order_id).2
              acct side qty price).2.1,
           ⟨order_id,
            ((b.cancel m order_id).1.limit (b.cancel m order_id).2
              acct side qty price).2.2.1, .accepted⟩)) := by
  refine ⟨?_, ?_, ?_⟩
  · intro o hfind hne
    simp [handleReplace, hfind, hne]
  · intro hfind
    simp [handleReplace, hfind]
  · intro o hfind husr
    refine ⟨findOrder?_uid b order_id o hfind, ?_⟩
    simp [handleReplace, hfind, husr]

/-- Witness for `replace_semantics`: replacing an already-gone order on
the empty book is Accepted with canceled = 0 and places the new
limit. -/
theorem replace_semantics_witness :
    handleReplace {} emptyAccts (some 0) 5 Side.buy 3 10
      = ((Book.limit {} emptyAccts 0 Side.buy 3 10).1,
         (Book.limit {} emptyAccts 0 Side.buy 3 10).2.1,
         ⟨0, (Book.limit {} emptyAccts 0 Side.buy 3 10).2.2.1, .accepted⟩) :=
  (replace_semantics {} emptyAccts 0 5 Side.buy 3 10).2.1 rfl

/-- Witness for `does_cross_iff`: a crossing pair of books built by one
resting sell at 3 and one resting buy at 5. -/
theorem does_cross_iff_witness :
    Book.does_cross (Book.limit_sell {} emptyAccts 0 2 3).1
        (Book.limit_buy {} emptyAccts 1 2 5).1 1 = true ↔
      Book.best_sell (Book.limit_sell {} emptyAccts 0 2 3).1 ≠ 0 ∧
        Book.best_sell (Book.limit_sell {} emptyAccts 0 2 3).1 + 1 <
          Book.best_buy (Book.limit_buy {} emptyAccts 1 2 5).1 :=
  does_cross_iff (Book.limit_sell {} emptyAccts 0 2 3).1
    (Book.limit_buy {} emptyAccts 1 2 5).1 1 (by decide)

end CBOE
